import Mathlib

/-!
Verification of the student-survey cleaning pipeline (`scripts/cleanup.py`).

The pipeline is embedded shallowly:

* a pandas cell is `Cell` (missing marker / string / rational number /
  parsed timestamp); Python strings are `List Char`;
* a DataFrame is `Table`: an ordered header (column names) plus an ordered
  list of rows; the eight named survey columns are fields of `Row`, and all
  other columns of a row are carried opaquely in `Row.extra`;
* machine floats are modelled by `ℚ`; `round(2)` is round-half-to-even on
  hundredths, as NumPy documents;
* each `_clean_*` method of `StudentDataCleaner` becomes a Lean function of
  the same name; `pd.sort_values` is embedded down to NumPy's
  introsort-based `argsort` (`aquicksort_` in `npysort/quicksort.c.src`),
  because tie behaviour of the default kind='quicksort' decides one claim.
-/

/-- Python strings are modelled as lists of characters. -/
abbrev Str := List Char

/-- A pandas cell: the missing marker (NaN/NaT/NA), a string, a numeric
value (floats modelled by `ℚ`), or an already-parsed timestamp instant
(modelled by an integer key that orders instants chronologically). -/
inductive Cell where
  | missing
  | str (s : Str)
  | num (q : ℚ)
  | time (t : ℤ)
deriving DecidableEq

/-- One survey row: the eight named columns plus the pass-through rest of
the row (`extra`, column name ↦ cell) for columns the pipeline never
names. -/
structure Row where
  timestamp : Cell
  sid : Cell
  age : Cell
  gender : Cell
  department : Cell
  gpa : Cell
  satisfaction : Cell
  comments : Cell
  extra : List (Str × Cell)
deriving DecidableEq

/-- A DataFrame: ordered column names plus ordered rows. -/
structure Table where
  header : List Str
  rows : List Row
deriving DecidableEq

def defaultRow : Row :=
  { timestamp := Cell.missing, sid := Cell.missing, age := Cell.missing,
    gender := Cell.missing, department := Cell.missing, gpa := Cell.missing,
    satisfaction := Cell.missing, comments := Cell.missing, extra := [] }

instance : Inhabited Row := ⟨defaultRow⟩

/-! ### Python string primitives (`str.strip`, `str.lower`, `str.title`,
`str.startswith`, `str.split(sep, 1)`) on `Str` -/

/-- The whitespace set of Python's `str.strip()`. -/
def isPySpace (c : Char) : Bool :=
  c = ' ' || c = '\t' || c = '\n' || c = '\r' || c = '\x0b' || c = '\x0c'

/-- Python `str.strip()`. -/
def pyStrip (s : Str) : Str :=
  ((s.dropWhile isPySpace).reverse.dropWhile isPySpace).reverse

/-- Python `str.lower()` (ASCII case, which is all the pipeline data uses). -/
def pyLower (s : Str) : Str := s.map Char.toLower

/-- Python `str.startswith(pre)`. -/
def pyStartsWith (s pre : Str) : Bool := pre.isPrefixOf s

/-- One step of Python `str.title()`: `prevCased` says whether the previous
character was a letter; a letter after a non-letter is uppercased, a letter
after a letter is lowercased. -/
def pyTitleAux : List Char → Bool → List Char
  | [], _ => []
  | c :: cs, prevCased =>
    if c.isAlpha then
      (if prevCased then c.toLower else c.toUpper) :: pyTitleAux cs true
    else
      c :: pyTitleAux cs false

/-- Python `str.title()`. -/
def pyTitle (s : Str) : Str := pyTitleAux s false

/-- Split at the first occurrence of `sep`: Python `s.split(sep, 1)` when it
does split, `none` when `sep` does not occur. -/
def splitFirst (sep : Char) : Str → Option (Str × Str)
  | [] => none
  | c :: cs =>
    if c = sep then some ([], cs)
    else (splitFirst sep cs).map (fun p => (c :: p.1, p.2))

/-! ### Numeric coercion (`pd.to_numeric(errors='coerce')`)

Modelled for plain decimal literals with optional sign and fraction part,
which is what the claims exercise; exponent notation, `inf`/`nan` literals
and digit separators are not modelled (no claim depends on them). -/

def digitVal (c : Char) : ℕ := c.toNat - 48

def digitsToNat (l : Str) : ℕ := l.foldl (fun a c => a * 10 + digitVal c) 0

/-- Parse an unsigned decimal literal (`"17"`, `"2.3"`, `".5"`, `"5."`). -/
def parseUnsigned (s : Str) : Option ℚ :=
  match splitFirst '.' s with
  | none => if s ≠ [] && s.all Char.isDigit then some (digitsToNat s) else none
  | some (ip, fp) =>
    if (ip ≠ [] || fp ≠ []) && ip.all Char.isDigit && fp.all Char.isDigit
        && fp.all (fun c => c ≠ '.') then
      some ((digitsToNat ip : ℚ) + (digitsToNat fp : ℚ) / (10 ^ fp.length))
    else none

/-- `pd.to_numeric(errors='coerce')` on one cell: numbers pass through,
strings are parsed (whitespace-stripped, optional sign), anything
unparseable and the missing marker coerce to missing; a parsed timestamp
exposes its integer key. -/
def pyToNumeric (c : Cell) : Option ℚ :=
  match c with
  | Cell.num q => some q
  | Cell.str s =>
    match pyStrip s with
    | '+' :: rest => parseUnsigned rest
    | '-' :: rest => (parseUnsigned rest).map Neg.neg
    | t => parseUnsigned t
  | Cell.time t => some (t : ℚ)
  | Cell.missing => none

/-! ### Rounding (`Series.round(2)`, NumPy round-half-to-even) -/

/-- Round a rational to the nearest integer, ties to even. -/
def intRoundHalfEven (q : ℚ) : ℤ :=
  let f := ⌊q⌋
  if q - f < 1 / 2 then f
  else if 1 / 2 < q - f then f + 1
  else if 2 ∣ f then f else f + 1

/-- `round(2)`: round to 2 decimal places. -/
def round2 (q : ℚ) : ℚ := (intRoundHalfEven (q * 100) : ℚ) / 100

/-! ### Linear interpolation (`Series.interpolate(method='linear')`)

pandas' default `limit_direction='forward'` fills every missing value that
has a non-missing value somewhere before it: between two non-missing
neighbours it interpolates linearly by position, and after the last
non-missing value it carries that value forward (`np.interp` clamps); a
missing value with no non-missing value before it stays missing. -/

/-- Last non-missing entry of a sequence, with its position. -/
def lastSomeOf (l : List (Option ℚ)) : Option (ℕ × ℚ) :=
  l.enum.foldl
    (fun acc p => match p.2 with | some v => some (p.1, v) | none => acc) none

/-- First non-missing entry of `l`, reported at offset `k`. -/
def firstSomeFrom : List (Option ℚ) → ℕ → Option (ℕ × ℚ)
  | [], _ => none
  | some v :: _, k => some (k, v)
  | none :: rest, k => firstSomeFrom rest (k + 1)

/-- Nearest non-missing value strictly before position `i`. -/
def prevValid (xs : List (Option ℚ)) (i : ℕ) : Option (ℕ × ℚ) :=
  lastSomeOf (xs.take i)

/-- Nearest non-missing value strictly after position `i`. -/
def nextValid (xs : List (Option ℚ)) (i : ℕ) : Option (ℕ × ℚ) :=
  firstSomeFrom (xs.drop (i + 1)) (i + 1)

/-- The interpolated value at position `i`. -/
def interpAt (xs : List (Option ℚ)) (i : ℕ) : Option ℚ :=
  match xs.getD i none with
  | some v => some v
  | none =>
    match prevValid xs i with
    | none => none
    | some (j, a) =>
      match nextValid xs i with
      | none => some a
      | some (k, b) => some (a + (b - a) * (((i : ℚ) - j) / ((k : ℚ) - j)))

/-- `Series.interpolate(method='linear')` over a numeric-or-missing column
in row order. -/
def interpolateLinear (xs : List (Option ℚ)) : List (Option ℚ) :=
  (List.range xs.length).map (interpAt xs)

/-! ### NumPy argsort, kind='quicksort' (introsort)

`df.sort_values('Timestamp', ascending=True)` on a single column calls
pandas `nargsort`, which argsorts the non-missing keys with NumPy's
default kind='quicksort' and appends the indices of missing keys at the
end (`na_position='last'`).  NumPy's `aquicksort_` is an introsort over an
index array: median-of-3 Hoare partitioning while more than
SMALL_QUICKSORT = 15 elements remain, an insertion sort below that, and a
heapsort fallback for a range popped from the stack with exhausted depth
budget (`npy_get_msb(num) * 2`).  It is embedded here operation for
operation on an index list; all writes go through `lswap`.  The recursion
is driven by ample fuel so that every definition is structural (the range
shrinks at every level, so the fuel `n + 2` is never exhausted). -/

/-- Read `l[i]` (0 when out of bounds; the algorithm stays in bounds). -/
def lget (l : List ℕ) (i : ℕ) : ℕ := l.getD i 0

/-- Swap `l[i]` and `l[j]` (`INTP_SWAP`); out-of-bounds swaps are no-ops. -/
def lswap (l : List ℕ) (i j : ℕ) : List ℕ :=
  if i < l.length && j < l.length then (l.set i (lget l j)).set j (lget l i)
  else l

/-- `LT(v[tosort[x]], v[tosort[y]])`: compare the keys the index list
points at. -/
def ltIdx (vals : List ℤ) (t : List ℕ) (x y : ℕ) : Bool :=
  decide (vals.getD (lget t x) 0 < vals.getD (lget t y) 0)

/-- The insertion-sort inner loop: bubble the element at position `p` down
towards `pl` while it is strictly smaller than its predecessor.  (NumPy
shifts a hole instead of swapping; with the same strict comparison both
produce the same array.) -/
def insBubble (vals : List ℤ) (pl : ℕ) : List ℕ → ℕ → List ℕ
  | t, 0 => t
  | t, p + 1 =>
    if pl ≤ p && ltIdx vals t (p + 1) p then
      insBubble vals pl (lswap t p (p + 1)) p
    else t

/-- Insertion sort of `tosort[pl..pr]` (inclusive), as in the tail of
`aquicksort_`. -/
def insSortRange (vals : List ℤ) (t : List ℕ) (pl pr : ℕ) : List ℕ :=
  (List.range' (pl + 1) (pr - pl)).foldl (fun acc p => insBubble vals pl acc p) t

/-- `do ++pi; while (LT(v[*pi], vp))` — returns the final `pi`. -/
def scanUp (vals : List ℤ) (vp : ℤ) (t : List ℕ) : ℕ → ℕ → ℕ
  | pi, 0 => pi + 1
  | pi, fuel + 1 =>
    if decide (vals.getD (lget t (pi + 1)) 0 < vp) then
      scanUp vals vp t (pi + 1) fuel
    else pi + 1

/-- `do --pj; while (LT(vp, v[*pj]))` — returns the final `pj`. -/
def scanDown (vals : List ℤ) (vp : ℤ) (t : List ℕ) : ℕ → ℕ → ℕ
  | pj, 0 => pj - 1
  | pj, fuel + 1 =>
    if decide (vp < vals.getD (lget t (pj - 1)) 0) then
      scanDown vals vp t (pj - 1) fuel
    else pj - 1

/-- The Hoare partition loop of `aquicksort_`: advance `pi` and `pj`
towards each other, swapping out-of-place pairs, until they cross; returns
the updated index list and the crossing position `pi`. -/
def partLoop (vals : List ℤ) (vp : ℤ) : List ℕ → ℕ → ℕ → ℕ → List ℕ × ℕ
  | t, pi, _, 0 => (t, pi)
  | t, pi, pj, fuel + 1 =>
    let pi' := scanUp vals vp t pi (t.length + 1)
    let pj' := scanDown vals vp t pj (t.length + 1)
    if pj' ≤ pi' then (t, pi')
    else partLoop vals vp (lswap t pi' pj') pi' pj' fuel

/-- One partition step on `tosort[pl..pr]`: median-of-3 pivot selection,
pivot parked at `pr - 1`, Hoare scan; returns the index list before the
final pivot swap together with the crossing position. -/
def partitionStep (vals : List ℤ) (t : List ℕ) (pl pr : ℕ) : List ℕ × ℕ :=
  let pm := pl + (pr - pl) / 2
  let t1 := if ltIdx vals t pm pl then lswap t pm pl else t
  let t2 := if ltIdx vals t1 pr pm then lswap t1 pr pm else t1
  let t3 := if ltIdx vals t2 pm pl then lswap t2 pm pl else t2
  let vp := vals.getD (lget t3 pm) 0
  let t4 := lswap t3 pm (pr - 1)
  partLoop vals vp t4 pl (pr - 1) (pr + 2)

/-- Swap-based sift-down of `aheapsort_` on the 1-based heap
`a[k] = tosort[pl + k - 1]` of size `n`, starting at heap position `i`.
(NumPy again shifts a hole; with the same comparisons the swap form
produces the same array.) -/
def siftDown (vals : List ℤ) (pl n : ℕ) : ℕ → List ℕ → ℕ → List ℕ
  | 0, t, _ => t
  | fuel + 1, t, i =>
    let j := 2 * i
    if j ≤ n then
      let j' := if j < n && ltIdx vals t (pl + j - 1) (pl + j) then j + 1 else j
      if ltIdx vals t (pl + i - 1) (pl + j' - 1) then
        siftDown vals pl n fuel (lswap t (pl + i - 1) (pl + j' - 1)) j'
      else t
    else t

/-- `aheapsort_` on `tosort[pl..pr]`: heapify, then repeatedly move the
maximum to the end of the shrinking heap. -/
def npHeapRange (vals : List ℤ) (t : List ℕ) (pl pr : ℕ) : List ℕ :=
  let n := pr + 1 - pl
  let t1 := (List.range (n / 2)).reverse.foldl
    (fun acc k => siftDown vals pl n (n + 2) acc (k + 1)) t
  (List.range (n - 1)).reverse.foldl
    (fun acc k =>
      let m := k + 2
      siftDown vals pl (m - 1) (m + 2) (lswap acc pl (pl + m - 1)) 1) t1

/-- The control skeleton of `aquicksort_` on the range `tosort[pl..pr]`.
`entry` marks a range taken from the stack (or the initial call), where the
exhausted-depth check runs and a negative `cdepth` diverts to heapsort; the
side the loop retains is processed without that check, exactly as in the C
code.  The larger side is pushed (processed as a later `entry` at depth
`cdepth - 1`), the smaller side is retained. -/
def npQSRun (vals : List ℤ) : ℕ → Bool → List ℕ → ℕ → ℕ → ℤ → List ℕ
  | 0, _, t, _, _, _ => t
  | fuel + 1, entry, t, pl, pr, cdepth =>
    if entry && decide (cdepth < 0) then npHeapRange vals t pl pr
    else if 15 < pr - pl then
      let p := partitionStep vals t pl pr
      let pi := p.2
      let t2 := lswap p.1 pi (pr - 1)
      if pi - pl < pr - pi then
        let tret := npQSRun vals fuel false t2 pl (pi - 1) (cdepth - 1)
        npQSRun vals fuel true tret (pi + 1) pr (cdepth - 1)
      else
        let tret := npQSRun vals fuel false t2 (pi + 1) pr (cdepth - 1)
        npQSRun vals fuel true tret pl (pi - 1) (cdepth - 1)
    else insSortRange vals t pl pr

/-- NumPy `argsort(vals, kind='quicksort')`. -/
def npArgsortQ (vals : List ℤ) : List ℕ :=
  npQSRun vals (vals.length + 2) true (List.range vals.length) 0
    (vals.length - 1) (2 * (Nat.log2 vals.length : ℤ))

/-- pandas `nargsort(keys, kind='quicksort', na_position='last')`: argsort
the non-missing keys, map the result back to original positions, append
the positions of missing keys in original order. -/
def nargsort (keys : List (Option ℤ)) : List ℕ :=
  let idx := List.range keys.length
  let nonNan := idx.filter (fun i => (keys.getD i none).isSome)
  let nans := idx.filter (fun i => (keys.getD i none).isNone)
  let vals := nonNan.map (fun i => (keys.getD i none).getD 0)
  (npArgsortQ vals).map (fun p => nonNan.getD p 0) ++ nans

/-! ### The cleaning stages of `StudentDataCleaner`

Each `_clean_*` method becomes a function `Table → Table` (the
Satisfaction stage returns `Except Str Table`, because it is the one stage
that can raise).  Column-level dtype behaviour of pandas is modelled per
cell: `.str` accessor methods yield the missing marker on a non-string
value, and arithmetic/comparison on a string value raises `TypeError`. -/

/-- Wrap an optional numeric back into a cell. -/
def optToCell : Option ℚ → Cell
  | some q => Cell.num q
  | none => Cell.missing

/-- `Series.fillna(d)` on one cell (string default). -/
def fillnaCell (d : Str) (c : Cell) : Cell :=
  match c with
  | Cell.missing => Cell.str d
  | _ => c

/-- The boolean mask `cell >= 1.0`: true only for a numeric value at least
1 (a missing value compares false, as NaN does). -/
def cellGeOne (c : Cell) : Bool :=
  match c with
  | Cell.num q => decide (1 ≤ q)
  | _ => false

/-- `pd.to_datetime(errors='coerce')` on one cell.  Already-parsed instants
pass through; strings are parsed as ISO `YYYY-MM-DD` dates, encoded by the
chronologically ordered key `y * 10000 + m * 100 + d` (other textual date
shapes are not modelled — no claim depends on which strings parse); a
number is read as an epoch offset; missing stays missing. -/
def toDatetime (c : Cell) : Option ℤ :=
  match c with
  | Cell.time t => some t
  | Cell.num q => some ⌊q⌋
  | Cell.missing => none
  | Cell.str s =>
    match pyStrip s with
    | [y1, y2, y3, y4, '-', m1, m2, '-', d1, d2] =>
      if [y1, y2, y3, y4, m1, m2, d1, d2].all Char.isDigit then
        let y := digitsToNat [y1, y2, y3, y4]
        let m := digitsToNat [m1, m2]
        let d := digitsToNat [d1, d2]
        if 1 ≤ m && m ≤ 12 && 1 ≤ d && d ≤ 31 then
          some ((y * 10000 + m * 100 + d : ℕ) : ℤ)
        else none
      else none
    | _ => none

/-- `_clean_timestamps`: parse the Timestamp column, drop rows whose
timestamp does not parse. -/
def clean_timestamps (t : Table) : Table :=
  let rows1 := t.rows.map (fun r =>
    { r with timestamp :=
        match toDatetime r.timestamp with
        | some v => Cell.time v
        | none => Cell.missing })
  { t with rows := rows1.filter (fun r => r.timestamp ≠ Cell.missing) }

/-- Rename `Student ID` to `Student_ID` in the header. -/
def renameSid (h : List Str) : List Str :=
  h.map (fun c => if c = "Student ID".data then "Student_ID".data else c)

/-- `.str.lower().str.strip()` on one cell: pandas `.str` methods apply to
string values and yield missing for anything else (missing included). -/
def strLowerStrip (c : Cell) : Cell :=
  match c with
  | Cell.str s => Cell.str (pyStrip (pyLower s))
  | _ => Cell.missing

/-- `_clean_student_ids`: rename the column, lower-case and trim. -/
def clean_student_ids (t : Table) : Table :=
  { header := renameSid t.header,
    rows := t.rows.map (fun r => { r with sid := strLowerStrip r.sid }) }

/-- `astype(int)` on a float value truncates toward zero. -/
def ratTrunc (q : ℚ) : ℤ := if 0 ≤ q then ⌊q⌋ else -⌊-q⌋

/-- `_clean_ages`: coerce to numeric, drop missing, keep `18 ≤ Age ≤ 60`,
cast to integer. -/
def clean_ages (t : Table) : Table :=
  let step1 := t.rows.map (fun r => { r with age := optToCell (pyToNumeric r.age) })
  let step2 := step1.filter (fun r => r.age ≠ Cell.missing)
  let step3 := step2.filter (fun r =>
    match r.age with
    | Cell.num q => decide (18 ≤ q) && decide (q ≤ 60)
    | _ => false)
  let step4 := step3.map (fun r =>
    { r with age :=
        match r.age with
        | Cell.num q => Cell.num ((ratTrunc q : ℤ) : ℚ)
        | c => c })
  { t with rows := step4 }

/-- `self.gender_mapping` applied by `Series.replace`: exact matches only,
with the missing marker itself a key mapping to `"Other"`. -/
def genderReplace (c : Cell) : Cell :=
  match c with
  | Cell.missing => Cell.str "Other".data
  | Cell.str s =>
    if s = "Femal".data then Cell.str "Female".data
    else if s = "Malee".data then Cell.str "Male".data
    else if s = "Othr".data then Cell.str "Other".data
    else c
  | _ => c

/-- `.str.title()` on one cell: title-case a string value, anything else
(including a number left in an object column) becomes missing. -/
def strTitleCell (c : Cell) : Cell :=
  match c with
  | Cell.str s => Cell.str (pyTitle s)
  | _ => Cell.missing

/-- The Gender stage's per-cell transform: replace, fill missing with
`"Other"`, title-case.  (`astype('string')` does not change the modelled
value.) -/
def genderCellClean (c : Cell) : Cell :=
  strTitleCell (fillnaCell "Other".data (genderReplace c))

/-- `_clean_gender`. -/
def clean_gender (t : Table) : Table :=
  { t with rows := t.rows.map (fun r => { r with gender := genderCellClean r.gender }) }

/-- `self.department_mapping` (the non-missing keys). -/
def deptPairs : List (Str × Str) :=
  [("Marine Sci".data, "Marine Sciences".data),
   ("Geo".data, "Geosciences".data),
   ("Biochem".data, "Biochemistry".data),
   ("Maths".data, "Mathematics".data),
   ("Phys".data, "Physics".data),
   ("Bio".data, "Biology".data),
   ("Cell Bio".data, "Cell Biology and Genetics".data),
   ("Chem".data, "Chemistry".data),
   ("Geophy".data, "Geophysics".data),
   ("Zoo".data, "Zoology".data),
   ("Microbio".data, "Microbiology".data),
   ("Comp Sci".data, "Computer Science".data)]

/-- The Department stage's per-cell transform: replace abbreviations and
the missing marker, then `fillna('Undeclared')`.  (`astype('string')`'s
rendering of a stray non-string scalar is not modelled — no claim touches
Department values.) -/
def deptCellClean (c : Cell) : Cell :=
  let replaced :=
    match c with
    | Cell.missing => Cell.str "Undeclared".data
    | Cell.str s =>
      match (deptPairs.filter (fun p => p.1 = s)).head? with
      | some p => Cell.str p.2
      | none => c
    | _ => c
  fillnaCell "Undeclared".data replaced

/-- `_clean_departments`. -/
def clean_departments (t : Table) : Table :=
  { t with rows := t.rows.map (fun r => { r with department := deptCellClean r.department }) }

/-- `self.grade_mapping` applied by `Series.replace`: the five letter
grades map to their fixed numeric values. -/
def gradeMap (c : Cell) : Cell :=
  match c with
  | Cell.str s =>
    if s = "A".data then Cell.num (9 / 2)
    else if s = "B".data then Cell.num (7 / 2)
    else if s = "C".data then Cell.num 3
    else if s = "D".data then Cell.num (5 / 2)
    else if s = "F".data then Cell.num (3 / 2)
    else c
  | _ => c

/-- `_clean_gpa`: letter grades to the numeric scale, coerce to numeric,
interpolate missing values, round to 2 decimals, keep rows with
`GPA >= 1.0`.  (`fillna(interpolate(...))` fills exactly the interpolated
values, so it is the interpolation itself.) -/
def clean_gpa (t : Table) : Table :=
  let coerced := t.rows.map (fun r => pyToNumeric (gradeMap r.gpa))
  let rounded := (interpolateLinear coerced).map (Option.map round2)
  let newRows := (t.rows.zip rounded).map
    (fun p => { p.1 with gpa := optToCell p.2 })
  { t with rows := newRows.filter (fun r => cellGeOne r.gpa) }

/-- A Satisfaction cell the stage's numeric operations accept: a number or
the missing marker.  A string (or timestamp) cell makes
`interpolate`/`round`/`>=` raise `TypeError` — the stage never coerces. -/
def satCellOk (c : Cell) : Bool :=
  match c with
  | Cell.num _ => true
  | Cell.missing => true
  | _ => false

/-- Numeric view of a Satisfaction cell. -/
def cellToOptNum (c : Cell) : Option ℚ :=
  match c with
  | Cell.num q => some q
  | _ => none

/-- `_clean_satisfaction`: interpolate missing values, round to 2 decimals,
keep rows `>= 1.0`.  There is no numeric coercion: on a column containing a
string value the stage raises `TypeError` (modelled as `Except.error`). -/
def clean_satisfaction (t : Table) : Except Str Table :=
  if t.rows.all (fun r => satCellOk r.satisfaction) then
    let vals := t.rows.map (fun r => cellToOptNum r.satisfaction)
    let rounded := (interpolateLinear vals).map (Option.map round2)
    let rows1 := (t.rows.zip rounded).map
      (fun p => { p.1 with satisfaction := optToCell p.2 })
    Except.ok { t with rows := rows1.filter (fun r => cellGeOne r.satisfaction) }
  else Except.error "TypeError".data

/-- `f'Comment {idx}: '` — the label the normalizer prepends. -/
def commentLabel (i : ℕ) : Str :=
  "Comment ".data ++ Nat.toDigits 10 i ++ ": ".data

def spamText : Str := "This is spam".data
def greatText : Str := "The course was great!".data
def noCommentText : Str := "No comment".data

/-- `_standardize_comment(idx, text)`: spam is replaced by canned praise;
an already-wrapped `Comment ...` keeps everything after its first colon
(trimmed; `'No comment'` when there is no colon); other non-blank text is
trimmed and wrapped; everything else (blank text or a non-string value)
becomes `'No comment'`. -/
def standardizeComment (i : ℕ) (c : Cell) : Str :=
  match c with
  | Cell.str t =>
    if pyStartsWith t spamText then commentLabel i ++ greatText
    else if pyStartsWith t "Comment".data then
      match splitFirst ':' t with
      | some (_, rest) => commentLabel i ++ pyStrip rest
      | none => commentLabel i ++ noCommentText
    else if pyStrip t ≠ [] then commentLabel i ++ pyStrip t
    else commentLabel i ++ noCommentText
  | _ => commentLabel i ++ noCommentText

/-- The Timestamp sort key of a row (a non-instant sorts like missing,
which cannot occur in the pipeline after the Timestamp stage). -/
def cellTimeKey (c : Cell) : Option ℤ :=
  match c with
  | Cell.time t => some t
  | _ => none

/-- `df['Comments'].fillna("The course was great!")` on one row. -/
def prefillRow (r : Row) : Row :=
  { r with comments := fillnaCell "The course was great!".data r.comments }

/-- `df.sort_values('Timestamp', ascending=True).reset_index(drop=True)`:
take the rows in `nargsort` order of their Timestamp keys. -/
def sortRowsByTimestamp (rows : List Row) : List Row :=
  (nargsort (rows.map (fun r => cellTimeKey r.timestamp))).map
    (fun i => rows.getD i defaultRow)

/-- Rewrite one row's comment from its post-sort position. -/
def reindexRow (p : ℕ × Row) : Row :=
  { p.2 with comments := Cell.str (standardizeComment p.1 p.2.comments) }

/-- `_clean_comments`: fill missing comments with canned praise, sort by
Timestamp ascending (`sort_values` default kind='quicksort' +
`reset_index(drop=True)`), then rewrite every comment through
`_standardize_comment` with its post-sort position. -/
def clean_comments (t : Table) : Table :=
  { t with rows :=
      ((sortRowsByTimestamp (t.rows.map prefillRow)).enum.map reindexRow) }

/-- `clean_dataset`: the eight stages in order (the I/O around them is out
of scope).  The Satisfaction stage's `TypeError` propagates. -/
def clean_dataset (t : Table) : Except Str Table :=
  let t6 := clean_gpa (clean_departments (clean_gender (clean_ages
    (clean_student_ids (clean_timestamps t)))))
  match clean_satisfaction t6 with
  | Except.ok t7 => Except.ok (clean_comments t7)
  | Except.error e => Except.error e

/-- The predicate deciding which rows the Age stage keeps: Age parses to a
number in `[18, 60]`. -/
def ageKeep (r : Row) : Bool :=
  match pyToNumeric r.age with
  | some q => decide (18 ≤ q) && decide (q ≤ 60)
  | none => false

/-- The Age rewrite applied to kept rows: the parsed value truncated to an
integer. -/
def ageCast (r : Row) : Row :=
  { r with age :=
      match pyToNumeric r.age with
      | some q => Cell.num ((ratTrunc q : ℤ) : ℚ)
      | none => r.age }

/-! ### Concrete tables used by witnesses and counterexamples -/

def mkRow (ts sid age gen dep gpa sat com : Cell) : Row :=
  { timestamp := ts, sid := sid, age := age, gender := gen, department := dep,
    gpa := gpa, satisfaction := sat, comments := com, extra := [] }

def hdr8 : List Str :=
  ["Timestamp".data, "Student ID".data, "Age".data, "Gender".data,
   "Department".data, "GPA".data, "Satisfaction (1-5)".data, "Comments".data]

/-- One row whose GPA is the letter grade B. -/
def gpaTbl : Table :=
  { header := hdr8,
    rows := [mkRow (Cell.time 1) (Cell.str "x1".data) (Cell.num 20)
      (Cell.str "Female".data) (Cell.str "Physics".data) (Cell.str "B".data)
      (Cell.num 4) (Cell.str "ok".data)] }

/-- The row above after the GPA stage: B became 3.5. -/
def gpaRowB : Row :=
  mkRow (Cell.time 1) (Cell.str "x1".data) (Cell.num 20)
    (Cell.str "Female".data) (Cell.str "Physics".data) (Cell.num (7 / 2))
    (Cell.num 4) (Cell.str "ok".data)

/-- Ages `"17"`, `"60"`, `"abc"`, `"18.5"`: only the middle two numeric
rows are candidates and only `"60"` and `"18.5"` are in range. -/
def ageTbl : Table :=
  { header := hdr8,
    rows := [
      mkRow (Cell.time 1) (Cell.str "a".data) (Cell.str "17".data)
        Cell.missing Cell.missing Cell.missing Cell.missing Cell.missing,
      mkRow (Cell.time 2) (Cell.str "b".data) (Cell.str "60".data)
        Cell.missing Cell.missing Cell.missing Cell.missing Cell.missing,
      mkRow (Cell.time 3) (Cell.str "c".data) (Cell.str "abc".data)
        Cell.missing Cell.missing Cell.missing Cell.missing Cell.missing,
      mkRow (Cell.time 4) (Cell.str "d".data) (Cell.str "18.5".data)
        Cell.missing Cell.missing Cell.missing Cell.missing Cell.missing] }

/-- The `"60"` row after the Age stage. -/
def ageRow60 : Row :=
  mkRow (Cell.time 2) (Cell.str "b".data) (Cell.num 60)
    Cell.missing Cell.missing Cell.missing Cell.missing Cell.missing

/-- A table whose Satisfaction column contains a non-numeric string. -/
def satBadTbl : Table :=
  { header := hdr8,
    rows := [{ defaultRow with satisfaction := Cell.str "abc".data }] }

/-- A numeric-or-missing Satisfaction column (trailing missing value). -/
def satGoodTbl : Table :=
  { header := hdr8,
    rows := [{ defaultRow with satisfaction := Cell.num 3 },
             { defaultRow with satisfaction := Cell.missing }] }

/-- A Gender column as `read_csv` produces it from an all-numeric column
with one blank: a float value next to a missing value. -/
def genderTbl : Table :=
  { header := hdr8,
    rows := [{ defaultRow with gender := Cell.num 5 },
             { defaultRow with gender := Cell.missing },
             { defaultRow with gender := Cell.str "femal".data }] }

/-- A Gender column whose cells are all strings or missing. -/
def genderOkTbl : Table :=
  { header := hdr8,
    rows := [{ defaultRow with gender := Cell.str "Femal".data },
             { defaultRow with gender := Cell.missing }] }

/-- 17 rows with identical timestamps and distinct student IDs. -/
def tieRow (c : Char) : Row :=
  { defaultRow with
    timestamp := Cell.time 0,
    sid := Cell.str [c],
    comments := Cell.str "x".data }

def tie17 : Table :=
  { header := hdr8, rows := "abcdefghijklmnopq".data.map tieRow }

/-- A 4-row raw table exercising the whole pipeline, including an extra
pass-through column and a missing Student ID. -/
def pipeTbl : Table :=
  { header := hdr8 ++ ["Notes".data],
    rows := [
      { timestamp := Cell.str "2024-01-02".data, sid := Cell.missing,
        age := Cell.str "25".data, gender := Cell.str "Femal".data,
        department := Cell.str "Geo".data, gpa := Cell.str "B".data,
        satisfaction := Cell.num 4,
        comments := Cell.str "This is spam, buy now!".data,
        extra := [("Notes".data, Cell.str "n1".data)] },
      { timestamp := Cell.str "2024-01-01".data, sid := Cell.str " AB12 ".data,
        age := Cell.str "60".data, gender := Cell.missing,
        department := Cell.missing, gpa := Cell.str "2.3".data,
        satisfaction := Cell.missing,
        comments := Cell.str "Comment 2: great class".data,
        extra := [("Notes".data, Cell.str "n2".data)] },
      { timestamp := Cell.str "bad".data, sid := Cell.str "X".data,
        age := Cell.str "17".data, gender := Cell.str "Malee".data,
        department := Cell.str "Bio".data, gpa := Cell.str "A".data,
        satisfaction := Cell.num 5, comments := Cell.missing,
        extra := [("Notes".data, Cell.str "n3".data)] },
      { timestamp := Cell.str "2024-01-03".data, sid := Cell.str "cd34".data,
        age := Cell.str "30".data, gender := Cell.str "male".data,
        department := Cell.str "Phys".data, gpa := Cell.str "".data,
        satisfaction := Cell.num 2, comments := Cell.str "  nice   ".data,
        extra := [("Notes".data, Cell.str "n4".data)] }] }

/-- Forget the Comments cell of a row (to state that the Comments stage
only reorders rows and rewrites this one column). -/
def eraseComments (r : Row) : Row := { r with comments := Cell.missing }

/-- The content part of a normalized comment cell: whatever follows the
first colon, trimmed (empty for a non-string or colon-free comment). -/
def cellContent (c : Cell) : Str :=
  match c with
  | Cell.str s =>
    match splitFirst ':' s with
    | some (_, rest) => pyStrip rest
    | none => []
  | _ => []

/-- The content part of a row's normalized comment. -/
def rowCommentContent (r : Row) : Str := cellContent r.comments

/-- The invariants every row of the pipeline's output satisfies in the
columns that run 2 of the pipeline filters on: a parsed timestamp, an
integer Age in `[18, 60]`, and numeric GPA and Satisfaction values that
are at least 1 with an integer number of hundredths. -/
def RowOk (r : Row) : Prop :=
  (∃ v : ℤ, r.timestamp = Cell.time v)
  ∧ (∃ n : ℤ, r.age = Cell.num (n : ℚ) ∧ 18 ≤ n ∧ n ≤ 60)
  ∧ (∃ q : ℚ, r.gpa = Cell.num q ∧ 1 ≤ q ∧ ∃ z : ℤ, q * 100 = (z : ℚ))
  ∧ (∃ q : ℚ, r.satisfaction = Cell.num q ∧ 1 ≤ q ∧ ∃ z : ℤ, q * 100 = (z : ℚ))

/-- The shape of a normalized comment cell: the label over a digit string
followed by trim-fixed content. -/
def CommentShaped (r : Row) : Prop :=
  ∃ ds X : Str, (∀ ch ∈ ds, ch.isDigit = true) ∧ pyStrip X = X
    ∧ r.comments = Cell.str ("Comment ".data ++ ds ++ ": ".data ++ X)

/-! ### The index list stays a permutation through the sort

Every write the embedded argsort performs is an `lswap`, so each of its
loops permutes the index list; composing these facts shows `nargsort`
returns a permutation of all row positions. -/

theorem getD_cons_set_perm (l : List ℕ) (s : ℕ) (x : ℕ) (h : s < l.length) :
    (l.getD s 0 :: l.set s x).Perm (x :: l) := by
  induction l generalizing s with
  | nil => simp at h
  | cons a t ih =>
    cases s with
    | zero => simpa using List.Perm.swap x a t
    | succ n =>
      have hn : n < t.length := by simpa using h
      exact (List.Perm.swap a (t.getD n 0) (t.set n x)).trans
        (((ih n hn).cons a).trans (List.Perm.swap x a t))

theorem set_set_perm (l : List ℕ) (i j : ℕ) (hi : i < l.length)
    (hj : j < l.length) :
    ((l.set i (l.getD j 0)).set j (l.getD i 0)).Perm l := by
  induction l generalizing i j with
  | nil => simp at hi
  | cons a t ih =>
    cases i with
    | zero =>
      cases j with
      | zero => simp
      | succ m =>
        have hm : m < t.length := by simpa using hj
        simpa using getD_cons_set_perm t m a hm
    | succ n =>
      have hn : n < t.length := by simpa using hi
      cases j with
      | zero => simpa using getD_cons_set_perm t n a hn
      | succ m =>
        have hm : m < t.length := by simpa using hj
        simpa using (ih n m hn hm).cons a

theorem lswap_perm (l : List ℕ) (i j : ℕ) : (lswap l i j).Perm l := by
  unfold lswap
  split
  · next h =>
    simp only [Bool.and_eq_true, decide_eq_true_eq] at h
    exact set_set_perm l i j h.1 h.2
  · exact List.Perm.refl l

theorem foldl_perm_of_step {α : Type} (step : List ℕ → α → List ℕ)
    (h : ∀ acc x, (step acc x).Perm acc) :
    ∀ (l : List α) (init : List ℕ), (l.foldl step init).Perm init := by
  intro l
  induction l with
  | nil => intro init; exact List.Perm.refl init
  | cons x l ih =>
    intro init
    exact (ih (step init x)).trans (h init x)

theorem insBubble_perm (vals : List ℤ) (pl : ℕ) :
    ∀ (p : ℕ) (t : List ℕ), (insBubble vals pl t p).Perm t := by
  intro p
  induction p with
  | zero => intro t; exact List.Perm.refl t
  | succ n ih =>
    intro t
    unfold insBubble
    split
    · exact (ih _).trans (lswap_perm t n (n + 1))
    · exact List.Perm.refl t

theorem insSortRange_perm (vals : List ℤ) (t : List ℕ) (pl pr : ℕ) :
    (insSortRange vals t pl pr).Perm t :=
  foldl_perm_of_step _ (fun acc p => insBubble_perm vals pl p acc) _ t

theorem partLoop_perm (vals : List ℤ) (vp : ℤ) :
    ∀ (fuel : ℕ) (t : List ℕ) (pi pj : ℕ),
      (partLoop vals vp t pi pj fuel).1.Perm t := by
  intro fuel
  induction fuel with
  | zero => intro t pi pj; exact List.Perm.refl t
  | succ n ih =>
    intro t pi pj
    unfold partLoop
    dsimp only
    split
    · exact List.Perm.refl t
    · exact (ih _ _ _).trans (lswap_perm t _ _)

theorem condSwap_perm (c : Bool) (t : List ℕ) (i j : ℕ) :
    (if c then lswap t i j else t).Perm t := by
  cases c <;> simp [lswap_perm]

theorem partitionStep_perm (vals : List ℤ) (t : List ℕ) (pl pr : ℕ) :
    (partitionStep vals t pl pr).1.Perm t := by
  unfold partitionStep
  refine (partLoop_perm vals _ _ _ _ _).trans ?_
  refine (lswap_perm _ _ _).trans ?_
  exact ((condSwap_perm _ _ _ _).trans
    ((condSwap_perm _ _ _ _).trans (condSwap_perm _ _ _ _)))

theorem siftDown_perm (vals : List ℤ) (pl n : ℕ) :
    ∀ (fuel : ℕ) (t : List ℕ) (i : ℕ), (siftDown vals pl n fuel t i).Perm t := by
  intro fuel
  induction fuel with
  | zero => intro t i; exact List.Perm.refl t
  | succ f ih =>
    intro t i
    unfold siftDown
    dsimp only
    split
    · split
      · split
        · exact (ih _ _).trans (lswap_perm t _ _)
        · exact List.Perm.refl t
      · split
        · exact (ih _ _).trans (lswap_perm t _ _)
        · exact List.Perm.refl t
    · exact List.Perm.refl t

theorem npHeapRange_perm (vals : List ℤ) (t : List ℕ) (pl pr : ℕ) :
    (npHeapRange vals t pl pr).Perm t := by
  unfold npHeapRange
  refine (foldl_perm_of_step _ (fun acc k => ?_) _ _).trans
    (foldl_perm_of_step _ (fun acc k => siftDown_perm vals pl _ _ acc _) _ t)
  exact (siftDown_perm vals pl _ _ _ _).trans (lswap_perm acc _ _)

theorem npQSRun_perm (vals : List ℤ) :
    ∀ (fuel : ℕ) (entry : Bool) (t : List ℕ) (pl pr : ℕ) (cdepth : ℤ),
      (npQSRun vals fuel entry t pl pr cdepth).Perm t := by
  intro fuel
  induction fuel with
  | zero => intro entry t pl pr cdepth; exact List.Perm.refl t
  | succ f ih =>
    intro entry t pl pr cdepth
    unfold npQSRun
    dsimp only
    split
    · exact npHeapRange_perm vals t pl pr
    · split
      · split
        · exact ((ih _ _ _ _ _).trans (ih _ _ _ _ _)).trans
            ((lswap_perm _ _ _).trans (partitionStep_perm vals t pl pr))
        · exact ((ih _ _ _ _ _).trans (ih _ _ _ _ _)).trans
            ((lswap_perm _ _ _).trans (partitionStep_perm vals t pl pr))
      · exact insSortRange_perm vals t pl pr

theorem npArgsortQ_perm (vals : List ℤ) :
    (npArgsortQ vals).Perm (List.range vals.length) :=
  npQSRun_perm vals _ _ _ _ _ _

/-- Reading every position of a list with `getD` reproduces it. -/
theorem map_getD_range {α : Type} (l : List α) (d : α) :
    (List.range l.length).map (fun i => l.getD i d) = l := by
  induction l with
  | nil => simp
  | cons a t ih =>
    rw [List.length_cons, List.range_succ_eq_map, List.map_cons, List.map_map]
    have h2 : List.map ((fun i => (a :: t).getD i d) ∘ Nat.succ)
        (List.range t.length) = List.map (fun i => t.getD i d)
        (List.range t.length) := by
      refine List.map_congr_left ?_
      intro i _
      rfl
    rw [h2, ih]
    rfl

/-- Reindexing through a permutation of all positions permutes the list. -/
theorem argsort_compact_perm (nonNan : List ℕ) (vals : List ℤ)
    (h : vals.length = nonNan.length) :
    ((npArgsortQ vals).map (fun p => nonNan.getD p 0)).Perm nonNan := by
  have hp := npArgsortQ_perm vals
  rw [h] at hp
  exact (hp.map _).trans (by rw [map_getD_range])

theorem nargsort_perm (keys : List (Option ℤ)) :
    (nargsort keys).Perm (List.range keys.length) := by
  unfold nargsort
  refine (List.Perm.append_right _
    (argsort_compact_perm _ _ (by simp))).trans ?_
  have h3 : ∀ i ∈ List.range keys.length,
      ((keys.getD i none).isNone) = (!(keys.getD i none).isSome) := by
    intro i _
    cases keys.getD i none <;> simp
  rw [List.filter_congr h3]
  exact List.filter_append_perm _ _

/-! ### Interpolation lemmas -/

theorem getD_some_lt {xs : List (Option ℚ)} {i : ℕ} {v : ℚ}
    (h : xs.getD i none = some v) : i < xs.length := by
  by_contra hlt
  rw [List.getD_eq_getElem?_getD, List.getElem?_eq_none (by omega)] at h
  simp at h

theorem interpolateLinear_getD (xs : List (Option ℚ)) (i : ℕ)
    (h : i < xs.length) :
    (interpolateLinear xs).getD i none = interpAt xs i := by
  unfold interpolateLinear
  rw [List.getD_eq_getElem?_getD, List.getElem?_map, List.getElem?_range h]
  rfl

theorem interpAt_some (xs : List (Option ℚ)) (i : ℕ) (v : ℚ)
    (h : xs.getD i none = some v) : interpAt xs i = some v := by
  unfold interpAt
  rw [h]

theorem foldl_lastSome_none (el : List (ℕ × Option ℚ))
    (h : ∀ p ∈ el, p.2 = none) :
    el.foldl (fun acc p =>
      match p.2 with | some v => some (p.1, v) | none => acc) none = none := by
  induction el with
  | nil => rfl
  | cons x l ih =>
    have hx := h x (by simp)
    rw [List.foldl_cons]
    simp only [hx]
    exact ih (fun p hp => h p (by simp [hp]))

theorem lastSomeOf_none (l : List (Option ℚ)) (h : ∀ x ∈ l, x = none) :
    lastSomeOf l = none := by
  unfold lastSomeOf
  apply foldl_lastSome_none
  intro p hp
  rw [List.mem_enum_iff_getElem?] at hp
  exact h p.2 (List.getElem?_mem hp)

theorem firstSomeFrom_none (l : List (Option ℚ)) (h : ∀ x ∈ l, x = none) :
    ∀ k, firstSomeFrom l k = none := by
  induction l with
  | nil => intro k; rfl
  | cons a rest ih =>
    intro k
    have ha := h a (by simp)
    subst ha
    exact ih (fun x hx => h x (by simp [hx])) (k + 1)

theorem take_all_none (xs : List (Option ℚ)) :
    ∀ (i : ℕ), (∀ j, j < i → xs.getD j none = none) →
      ∀ x ∈ xs.take i, x = none := by
  induction xs with
  | nil => intro i h x hx; simp at hx
  | cons a t ih =>
    intro i h x hx
    cases i with
    | zero => simp at hx
    | succ k =>
      rw [List.take_succ_cons] at hx
      rcases List.mem_cons.mp hx with rfl | hx'
      · exact h 0 (Nat.succ_pos k)
      · exact ih k (fun j hj => h (j + 1) (Nat.succ_lt_succ hj)) x hx'

theorem drop_all_none (xs : List (Option ℚ)) :
    ∀ (k : ℕ), (∀ j, k ≤ j → xs.getD j none = none) →
      ∀ x ∈ xs.drop k, x = none := by
  induction xs with
  | nil => intro k h x hx; simp at hx
  | cons a t ih =>
    intro k h x hx
    cases k with
    | zero =>
      rw [List.drop_zero] at hx
      rcases List.mem_cons.mp hx with rfl | hx2
      · exact h 0 (Nat.le_refl 0)
      · exact ih 0 (fun j _ => h (j + 1) (by omega)) x hx2
    | succ m =>
      rw [List.drop_succ_cons] at hx
      exact ih m (fun j hj => h (j + 1) (by omega)) x hx

/-- A missing entry with nothing non-missing before it stays missing. -/
theorem interpAt_leading_none (xs : List (Option ℚ)) (i : ℕ)
    (hbefore : ∀ j, j < i → xs.getD j none = none)
    (hmiss : xs.getD i none = none) : interpAt xs i = none := by
  unfold interpAt
  rw [hmiss]
  have hprev : prevValid xs i = none :=
    lastSomeOf_none _ (take_all_none xs i hbefore)
  rw [hprev]

/-- A missing entry with nothing non-missing after it is filled by the
last non-missing value before it. -/
theorem interpAt_trailing_fill (xs : List (Option ℚ)) (i ja : ℕ) (a : ℚ)
    (hmiss : xs.getD i none = none)
    (hafter : ∀ j, i < j → xs.getD j none = none)
    (hprev : prevValid xs i = some (ja, a)) : interpAt xs i = some a := by
  unfold interpAt
  rw [hmiss, hprev]
  have hnext : nextValid xs i = none :=
    firstSomeFrom_none _ (drop_all_none xs (i + 1) (fun j hj => hafter j (by omega))) _
  rw [hnext]

/-- A missing entry with non-missing values on both sides gets the
position-based linear interpolation of its nearest such neighbours. -/
theorem interpAt_between (xs : List (Option ℚ)) (i j k : ℕ) (a b : ℚ)
    (hmiss : xs.getD i none = none)
    (hprev : prevValid xs i = some (j, a))
    (hnext : nextValid xs i = some (k, b)) :
    interpAt xs i = some (a + (b - a) * (((i : ℚ) - j) / ((k : ℚ) - j))) := by
  unfold interpAt
  rw [hmiss, hprev, hnext]

/-! ### Stage postconditions for GPA / Satisfaction / Age -/

theorem round2_times_hundred (q : ℚ) : ∃ z : ℤ, round2 q * 100 = (z : ℚ) := by
  refine ⟨intRoundHalfEven (q * 100), ?_⟩
  unfold round2
  rw [div_mul_cancel₀]
  norm_num

/-- Every row surviving the GPA stage carries a numeric GPA that is at
least 1 and an integer number of hundredths. -/
theorem mem_clean_gpa_shape (t : Table) (r : Row)
    (h : r ∈ (clean_gpa t).rows) :
    ∃ q : ℚ, r.gpa = Cell.num q ∧ 1 ≤ q ∧ ∃ z : ℤ, q * 100 = (z : ℚ) := by
  unfold clean_gpa at h
  dsimp only at h
  rw [List.mem_filter] at h
  obtain ⟨hmem, hge⟩ := h
  rw [List.mem_map] at hmem
  obtain ⟨p, hp, rfl⟩ := hmem
  have hp2 := (List.of_mem_zip hp).2
  rw [List.mem_map] at hp2
  obtain ⟨o, _, ho⟩ := hp2
  simp only [cellGeOne] at hge
  cases o with
  | none =>
    rw [← ho] at hge
    simp [optToCell] at hge
  | some x =>
    rw [← ho] at hge ⊢
    simp only [Option.map_some', optToCell] at hge ⊢
    refine ⟨round2 x, rfl, ?_, round2_times_hundred x⟩
    simpa using hge

/-- The Satisfaction stage succeeds exactly on numeric-or-missing columns. -/
theorem clean_satisfaction_ok_iff (t : Table) :
    (∃ u, clean_satisfaction t = Except.ok u) ↔
      (t.rows.all (fun r => satCellOk r.satisfaction)) = true := by
  unfold clean_satisfaction
  constructor
  · intro ⟨u, hu⟩
    by_contra hall
    rw [if_neg hall] at hu
    exact Except.noConfusion hu
  · intro hall
    rw [if_pos hall]
    exact ⟨_, rfl⟩

theorem clean_satisfaction_error (t : Table)
    (h : ¬ (t.rows.all (fun r => satCellOk r.satisfaction)) = true) :
    clean_satisfaction t = Except.error "TypeError".data := by
  unfold clean_satisfaction
  rw [if_neg h]

/-- Every row surviving the Satisfaction stage carries a numeric
satisfaction score that is at least 1 and an integer number of
hundredths. -/
theorem mem_clean_satisfaction_shape (t u : Table) (r : Row)
    (hok : clean_satisfaction t = Except.ok u) (h : r ∈ u.rows) :
    ∃ q : ℚ, r.satisfaction = Cell.num q ∧ 1 ≤ q ∧
      ∃ z : ℤ, q * 100 = (z : ℚ) := by
  unfold clean_satisfaction at hok
  split at hok
  · obtain rfl : _ = u := congrArg (Except.toOption) hok |> Option.some.inj
    dsimp only at h
    rw [List.mem_filter] at h
    obtain ⟨hmem, hge⟩ := h
    rw [List.mem_map] at hmem
    obtain ⟨p, hp, rfl⟩ := hmem
    have hp2 := (List.of_mem_zip hp).2
    rw [List.mem_map] at hp2
    obtain ⟨o, _, ho⟩ := hp2
    simp only [cellGeOne] at hge
    cases o with
    | none =>
      rw [← ho] at hge
      simp [optToCell] at hge
    | some x =>
      rw [← ho] at hge ⊢
      simp only [Option.map_some', optToCell] at hge ⊢
      refine ⟨round2 x, rfl, ?_, round2_times_hundred x⟩
      simpa using hge
  · exact Except.noConfusion hok

theorem ageKeep_split (o : Option ℚ) :
    ((match optToCell o with
      | Cell.num q => decide (18 ≤ q) && decide (q ≤ 60)
      | _ => false) && decide (optToCell o ≠ Cell.missing))
    = (match o with
      | some q => decide (18 ≤ q) && decide (q ≤ 60)
      | none => false) := by
  cases o <;> simp [optToCell]

/-- The Age stage is exactly: keep the parse-in-range rows, truncate. -/
theorem clean_ages_rows (t : Table) :
    (clean_ages t).rows = (t.rows.filter ageKeep).map ageCast := by
  unfold clean_ages
  dsimp only
  rw [List.filter_map, List.filter_map, List.filter_filter, List.map_map]
  have hpred : ∀ r ∈ t.rows,
      (((fun r : Row =>
          match r.age with
          | Cell.num q => decide (18 ≤ q) && decide (q ≤ 60)
          | _ => false) ∘ fun r : Row => { r with age := optToCell (pyToNumeric r.age) }) r
        && ((fun r : Row => decide (r.age ≠ Cell.missing)) ∘
            fun r : Row => { r with age := optToCell (pyToNumeric r.age) }) r)
        = ageKeep r := by
    intro r _
    simp only [Function.comp]
    unfold ageKeep
    exact ageKeep_split (pyToNumeric r.age)
  rw [List.filter_congr hpred]
  apply List.map_congr_left
  intro r hr
  rw [List.mem_filter] at hr
  obtain ⟨_, hk⟩ := hr
  unfold ageKeep at hk
  cases hn : pyToNumeric r.age with
  | none => rw [hn] at hk; simp at hk
  | some q =>
    simp only [Function.comp, ageCast, hn]
    rfl

/-! ### Claims -/

theorem getD_pair_none (a b : Option ℚ) :
    ∀ j, 1 < j → ([a, b]).getD j none = none := by
  intro j hj
  rw [List.getD_eq_getElem?_getD, List.getElem?_eq_none (by simp; omega)]
  rfl

/-- C1.  GPA stage postcondition: letter grades map to their fixed numeric
values (A=4.5, B=3.5, C=3.0, D=2.5, F=1.5), remaining values coerce to
numeric with unparseable values becoming missing, a missing value with
non-missing neighbours on both sides receives the position-based linear
interpolation of its nearest neighbours (2.0 and 4.0 around one gap give
exactly 3.0), and after rounding to 2 decimals and the `>= 1.0` filter
every surviving GPA is a numeric value `>= 1.0` with at most 2 decimal
places. -/
theorem C1_gpa_stage :
    (∀ (t : Table), ∀ r ∈ (clean_gpa t).rows,
      ∃ q : ℚ, r.gpa = Cell.num q ∧ 1 ≤ q ∧ ∃ z : ℤ, q * 100 = (z : ℚ))
    ∧ (gradeMap (Cell.str "A".data) = Cell.num (9 / 2)
       ∧ gradeMap (Cell.str "B".data) = Cell.num (7 / 2)
       ∧ gradeMap (Cell.str "C".data) = Cell.num 3
       ∧ gradeMap (Cell.str "D".data) = Cell.num (5 / 2)
       ∧ gradeMap (Cell.str "F".data) = Cell.num (3 / 2))
    ∧ pyToNumeric (Cell.str "abc".data) = none
    ∧ pyToNumeric (Cell.str "2.3".data) = some (23 / 10)
    ∧ (∀ (xs : List (Option ℚ)) (i j k : ℕ) (a b : ℚ),
        xs.getD i none = none → prevValid xs i = some (j, a) →
        nextValid xs i = some (k, b) → i < xs.length →
        (interpolateLinear xs).getD i none
          = some (a + (b - a) * (((i : ℚ) - j) / ((k : ℚ) - j))))
    ∧ interpolateLinear [some 2, none, some 4] = [some 2, some 3, some 4] := by
  refine ⟨fun t r h => mem_clean_gpa_shape t r h,
    ⟨by with_unfolding_all decide, by with_unfolding_all decide, by with_unfolding_all decide, by with_unfolding_all decide, by with_unfolding_all decide⟩,
    by with_unfolding_all decide, by with_unfolding_all decide, ?_, by with_unfolding_all decide⟩
  intro xs i j k a b hmiss hprev hnext hlen
  rw [interpolateLinear_getD xs i hlen,
    interpAt_between xs i j k a b hmiss hprev hnext]

theorem C1_gpa_stage_witness :
    (gpaRowB ∈ (clean_gpa gpaTbl).rows
      ∧ ∃ q : ℚ, gpaRowB.gpa = Cell.num q ∧ 1 ≤ q ∧ ∃ z : ℤ, q * 100 = (z : ℚ))
    ∧ (interpolateLinear [some (2 : ℚ), none, some 4]).getD 1 none
        = some (2 + (4 - 2) * ((((1 : ℕ) : ℚ) - ((0 : ℕ) : ℚ))
          / (((2 : ℕ) : ℚ) - ((0 : ℕ) : ℚ)))) :=
  ⟨⟨by with_unfolding_all decide, C1_gpa_stage.1 gpaTbl gpaRowB (by with_unfolding_all decide)⟩,
   C1_gpa_stage.2.2.2.2.1 [some 2, none, some 4] 1 0 2 2 4
     (by with_unfolding_all decide) (by with_unfolding_all decide) (by with_unfolding_all decide) (by with_unfolding_all decide)⟩

/-- C2.  Age stage postcondition: every surviving row has an integer Age
in `[18, 60]`; the stage is exactly the filter keeping rows whose Age
parses to a number in `[18, 60]` (so non-numeric and out-of-range rows are
removed by it) followed by the integer cast. -/
theorem C2_age_stage :
    (∀ (t : Table), ∀ r ∈ (clean_ages t).rows,
      ∃ n : ℤ, r.age = Cell.num (n : ℚ) ∧ 18 ≤ n ∧ n ≤ 60)
    ∧ (∀ t : Table, (clean_ages t).rows = (t.rows.filter ageKeep).map ageCast)
    ∧ (∀ r : Row, ageKeep r = true ↔
        ∃ q : ℚ, pyToNumeric r.age = some q ∧ 18 ≤ q ∧ q ≤ 60) := by
  refine ⟨?_, clean_ages_rows, ?_⟩
  · intro t r h
    rw [clean_ages_rows] at h
    rw [List.mem_map] at h
    obtain ⟨r0, hr0, rfl⟩ := h
    rw [List.mem_filter] at hr0
    obtain ⟨_, hk⟩ := hr0
    unfold ageKeep at hk
    cases hn : pyToNumeric r0.age with
    | none => rw [hn] at hk; simp at hk
    | some q =>
      rw [hn] at hk
      simp only [Bool.and_eq_true, decide_eq_true_eq] at hk
      obtain ⟨h18, h60⟩ := hk
      have h0 : (0 : ℚ) ≤ q := le_trans (by norm_num) h18
      refine ⟨ratTrunc q, ?_, ?_, ?_⟩
      · unfold ageCast
        rw [hn]
      · unfold ratTrunc
        rw [if_pos h0]
        exact Int.le_floor.mpr (by exact_mod_cast h18)
      · unfold ratTrunc
        rw [if_pos h0]
        have hle := (Int.floor_le q).trans h60
        exact_mod_cast hle
  · intro r
    unfold ageKeep
    cases hn : pyToNumeric r.age with
    | none => simp
    | some q => simp

theorem C2_age_stage_witness :
    (ageRow60 ∈ (clean_ages ageTbl).rows
      ∧ ∃ n : ℤ, ageRow60.age = Cell.num (n : ℚ) ∧ 18 ≤ n ∧ n ≤ 60)
    ∧ ((clean_ages ageTbl).rows.length = 2) :=
  ⟨⟨by with_unfolding_all decide, (C2_age_stage.1 ageTbl) ageRow60 (by with_unfolding_all decide)⟩, by with_unfolding_all decide⟩

/-- C4 counterexample: a trailing missing value (no non-missing neighbour
after it) does NOT remain missing: `[5.0, missing]` interpolates to
`[5.0, 5.0]` — pandas' default forward fill carries the last value
forward, contradicting the claimed no-extrapolation-on-either-end
policy. -/
theorem C4_counterexample :
    (interpolateLinear [some (5 : ℚ), none]).getD 1 none = some 5
    ∧ (interpolateLinear [some (5 : ℚ), none]).getD 1 none ≠ none := by
  constructor <;> with_unfolding_all decide

/-- C4 (amended): interpolation never changes a present value; a leading
missing run with no non-missing value before it stays missing; a trailing
missing run with no non-missing value after it is filled by carrying the
last non-missing value forward (not left missing); rows whose value is
still missing after interpolation are removed by the `>= 1.0` filter of
the GPA and Satisfaction stages. -/
theorem C4_interpolation_edges :
    (∀ (xs : List (Option ℚ)) (i : ℕ) (v : ℚ), xs.getD i none = some v →
      (interpolateLinear xs).getD i none = some v)
    ∧ (∀ (xs : List (Option ℚ)) (i : ℕ), i < xs.length →
        (∀ j, j < i → xs.getD j none = none) → xs.getD i none = none →
        (interpolateLinear xs).getD i none = none)
    ∧ (∀ (xs : List (Option ℚ)) (i ja : ℕ) (a : ℚ), i < xs.length →
        xs.getD i none = none → (∀ j, i < j → xs.getD j none = none) →
        prevValid xs i = some (ja, a) →
        (interpolateLinear xs).getD i none = some a)
    ∧ (∀ (t : Table), ∀ r ∈ (clean_gpa t).rows, r.gpa ≠ Cell.missing)
    ∧ (∀ (t u : Table), clean_satisfaction t = Except.ok u →
        ∀ r ∈ u.rows, r.satisfaction ≠ Cell.missing) := by
  refine ⟨?_, ?_, ?_, ?_, ?_⟩
  · intro xs i v h
    rw [interpolateLinear_getD xs i (getD_some_lt h), interpAt_some xs i v h]
  · intro xs i hlen hbefore hmiss
    rw [interpolateLinear_getD xs i hlen,
      interpAt_leading_none xs i hbefore hmiss]
  · intro xs i ja a hlen hmiss hafter hprev
    rw [interpolateLinear_getD xs i hlen,
      interpAt_trailing_fill xs i ja a hmiss hafter hprev]
  · intro t r h
    obtain ⟨q, hq, _⟩ := mem_clean_gpa_shape t r h
    rw [hq]
    exact fun hc => Cell.noConfusion hc
  · intro t u hok r h
    obtain ⟨q, hq, _⟩ := mem_clean_satisfaction_shape t u r hok h
    rw [hq]
    exact fun hc => Cell.noConfusion hc

theorem C4_interpolation_edges_witness :
    ((interpolateLinear [none, some (5 : ℚ)]).getD 0 none = none)
    ∧ ((interpolateLinear [some (5 : ℚ), none]).getD 1 none = some 5) :=
  ⟨C4_interpolation_edges.2.1 [none, some 5] 0 (by with_unfolding_all decide)
      (fun j hj => absurd hj (by omega)) (by with_unfolding_all decide),
   C4_interpolation_edges.2.2.1 [some 5, none] 1 0 5 (by with_unfolding_all decide) (by with_unfolding_all decide)
      (getD_pair_none _ _) (by with_unfolding_all decide)⟩

/-- C5 counterexample: the Satisfaction stage performs no numeric
coercion; on a table whose Satisfaction column holds the unparseable
string "abc" the stage raises (`TypeError`) rather than producing a
missing value, so it does not complete on every input table. -/
theorem C5_counterexample :
    clean_satisfaction satBadTbl = Except.error "TypeError".data := rfl

/-- C5 (amended): the Satisfaction stage applies no numeric parsing.  On a
table whose Satisfaction cells are all numeric or missing it completes,
and every surviving score is numeric, `>= 1.0`, with at most 2 decimal
places; a table with a string Satisfaction cell makes the stage raise
`TypeError` instead of treating the cell as missing. -/
theorem C5_satisfaction_stage :
    (∀ t : Table, (t.rows.all (fun r => satCellOk r.satisfaction)) = true →
      ∃ u, clean_satisfaction t = Except.ok u ∧
        ∀ r ∈ u.rows, ∃ q : ℚ, r.satisfaction = Cell.num q ∧ 1 ≤ q ∧
          ∃ z : ℤ, q * 100 = (z : ℚ))
    ∧ (∀ t : Table, (t.rows.all (fun r => satCellOk r.satisfaction)) = false →
      clean_satisfaction t = Except.error "TypeError".data) := by
  constructor
  · intro t hall
    obtain ⟨u, hu⟩ := (clean_satisfaction_ok_iff t).mpr hall
    exact ⟨u, hu, fun r hr => mem_clean_satisfaction_shape t u r hu hr⟩
  · intro t hall
    exact clean_satisfaction_error t (by simp [hall])

theorem C5_satisfaction_stage_witness :
    ((satGoodTbl.rows.all (fun r => satCellOk r.satisfaction)) = true)
    ∧ (∃ u, clean_satisfaction satGoodTbl = Except.ok u ∧
        ∀ r ∈ u.rows, ∃ q : ℚ, r.satisfaction = Cell.num q ∧ 1 ≤ q ∧
          ∃ z : ℤ, q * 100 = (z : ℚ)) :=
  ⟨by with_unfolding_all decide, C5_satisfaction_stage.1 satGoodTbl (by with_unfolding_all decide)⟩

/-- The Gender per-cell transform sends every string to a string. -/
theorem genderCellClean_str (s : Str) :
    ∃ s2, genderCellClean (Cell.str s) = Cell.str s2 := by
  unfold genderCellClean genderReplace
  dsimp only
  by_cases h1 : s = "Femal".data
  · rw [if_pos h1]; exact ⟨_, rfl⟩
  · rw [if_neg h1]
    by_cases h2 : s = "Malee".data
    · rw [if_pos h2]; exact ⟨_, rfl⟩
    · rw [if_neg h2]
      by_cases h3 : s = "Othr".data
      · rw [if_pos h3]; exact ⟨_, rfl⟩
      · rw [if_neg h3]; exact ⟨_, rfl⟩

/-- C6 counterexample: on a Gender column holding a number, a missing
value and the lower-case spelling "femal" (all producible by `read_csv`),
the stage outputs a missing Gender (pandas `.str.title()` turns the
non-string into missing) and the typo form "Femal" (title-casing
"femal"), contradicting both "no Gender value is missing" and "no Gender
value is one of the typo forms". -/
theorem C6_counterexample :
    (clean_gender genderTbl).rows.map Row.gender
      = [Cell.missing, Cell.str "Other".data, Cell.str "Femal".data] := by
  with_unfolding_all decide

/-- C6 (amended): the mapping {Femal→Female, Malee→Male, Othr→Other,
missing→Other} is applied to exact matches and string values are then
title-cased; on tables whose Gender cells are all strings or missing no
missing value remains; but a non-string Gender cell becomes missing
(pandas `.str` semantics), and title-casing a case-variant spelling such
as "femal" reintroduces the typo form "Femal". -/
theorem C6_gender_stage :
    (genderCellClean (Cell.str "Femal".data) = Cell.str "Female".data
      ∧ genderCellClean (Cell.str "Malee".data) = Cell.str "Male".data
      ∧ genderCellClean (Cell.str "Othr".data) = Cell.str "Other".data
      ∧ genderCellClean Cell.missing = Cell.str "Other".data)
    ∧ (∀ t : Table,
        (∀ r ∈ t.rows, (∃ s, r.gender = Cell.str s) ∨ r.gender = Cell.missing) →
        ∀ r ∈ (clean_gender t).rows, r.gender ≠ Cell.missing)
    ∧ (∀ c : Cell, (∀ s, c ≠ Cell.str s) → c ≠ Cell.missing →
        genderCellClean c = Cell.missing)
    ∧ genderCellClean (Cell.str "femal".data) = Cell.str "Femal".data := by
  refine ⟨⟨by with_unfolding_all decide, by with_unfolding_all decide,
    by with_unfolding_all decide, by with_unfolding_all decide⟩, ?_, ?_,
    by with_unfolding_all decide⟩
  · intro t hall r hr
    unfold clean_gender at hr
    dsimp only at hr
    rw [List.mem_map] at hr
    obtain ⟨r0, hr0, rfl⟩ := hr
    show genderCellClean r0.gender ≠ Cell.missing
    rcases hall r0 hr0 with ⟨s, hs⟩ | hs
    · rw [hs]
      obtain ⟨s2, hs2⟩ := genderCellClean_str s
      rw [hs2]
      exact fun hc => Cell.noConfusion hc
    · rw [hs]
      intro hc
      exact Cell.noConfusion hc
  · intro c hstr hmiss
    cases c with
    | missing => exact absurd rfl hmiss
    | str s => exact absurd rfl (hstr s)
    | num q => rfl
    | time t => rfl

theorem C6_gender_stage_witness :
    ((∀ r ∈ genderOkTbl.rows,
        (∃ s, r.gender = Cell.str s) ∨ r.gender = Cell.missing)
      ∧ (∀ r ∈ (clean_gender genderOkTbl).rows, r.gender ≠ Cell.missing))
    ∧ genderCellClean (Cell.num 5) = Cell.missing := by
  have hw : ∀ r ∈ genderOkTbl.rows,
      (∃ s, r.gender = Cell.str s) ∨ r.gender = Cell.missing := by
    intro r hr
    rcases List.mem_cons.mp hr with rfl | hr2
    · exact Or.inl ⟨"Femal".data, rfl⟩
    · rcases List.mem_cons.mp hr2 with rfl | hr3
      · exact Or.inr rfl
      · simp at hr3
  exact ⟨⟨hw, C6_gender_stage.2.1 genderOkTbl hw⟩,
    C6_gender_stage.2.2.1 (Cell.num 5) (fun s h => Cell.noConfusion h)
      (fun h => Cell.noConfusion h)⟩

/-! ### Comments stage: structure lemmas -/

theorem pyStrip_eq_rdrop (u : Str) :
    pyStrip u = List.rdropWhile isPySpace (List.dropWhile isPySpace u) := rfl

theorem pyStrip_idem (s : Str) : pyStrip (pyStrip s) = pyStrip s := by
  rw [pyStrip_eq_rdrop, pyStrip_eq_rdrop]
  rcases eq_or_ne (List.rdropWhile isPySpace (List.dropWhile isPySpace s)) []
    with hnil | hne
  · rw [hnil]
    rfl
  · have hpre := List.rdropWhile_prefix isPySpace (List.dropWhile isPySpace s)
    have hd : List.dropWhile isPySpace
        (List.rdropWhile isPySpace (List.dropWhile isPySpace s))
        = List.rdropWhile isPySpace (List.dropWhile isPySpace s) := by
      rw [List.dropWhile_eq_self_iff]
      intro hl
      have hlen : 0 < (List.dropWhile isPySpace s).length :=
        Nat.lt_of_lt_of_le hl hpre.length_le
      have hg : (List.rdropWhile isPySpace (List.dropWhile isPySpace s)).get
            ⟨0, hl⟩ = (List.dropWhile isPySpace s).get ⟨0, hlen⟩ := by
        simp only [List.get_eq_getElem]
        exact List.IsPrefix.getElem hpre hl
      rw [hg]
      exact List.dropWhile_get_zero_not isPySpace s hlen
    rw [hd, List.rdropWhile_idempotent]

/-- Every output of the comment normalizer is the label `Comment {i}: `
followed by trim-fixed content. -/
theorem standardizeComment_shape (i : ℕ) (c : Cell) :
    ∃ rest, standardizeComment i c = commentLabel i ++ rest
      ∧ pyStrip rest = rest := by
  unfold standardizeComment
  cases c with
  | str t =>
    dsimp only
    split
    · exact ⟨greatText, rfl, by decide⟩
    · split
      · split
        · exact ⟨_, rfl, pyStrip_idem _⟩
        · exact ⟨noCommentText, rfl, by decide⟩
      · split
        · exact ⟨_, rfl, pyStrip_idem _⟩
        · exact ⟨noCommentText, rfl, by decide⟩
  | missing => exact ⟨noCommentText, rfl, by decide⟩
  | num q => exact ⟨noCommentText, rfl, by decide⟩
  | time t2 => exact ⟨noCommentText, rfl, by decide⟩

/-- The `sort_values` reindexing permutes the rows. -/
theorem sortRows_perm (rows : List Row) :
    (sortRowsByTimestamp rows).Perm rows := by
  unfold sortRowsByTimestamp
  have hp := nargsort_perm (rows.map (fun r => cellTimeKey r.timestamp))
  rw [List.length_map] at hp
  exact (hp.map _).trans (by rw [map_getD_range])

theorem clean_comments_length (t : Table) :
    (clean_comments t).rows.length = t.rows.length := by
  unfold clean_comments
  dsimp only
  rw [List.length_map, List.enum_length, (sortRows_perm _).length_eq,
    List.length_map]

/-- Mapping a per-row function that ignores Comments through the Comments
stage sees only a permutation of the input rows. -/
theorem clean_comments_map_eraseComments (t : Table) :
    ((clean_comments t).rows.map eraseComments).Perm
      (t.rows.map eraseComments) := by
  unfold clean_comments
  dsimp only
  have h1 : ((sortRowsByTimestamp (t.rows.map prefillRow)).enum.map
        reindexRow).map eraseComments
      = (sortRowsByTimestamp (t.rows.map prefillRow)).map eraseComments := by
    rw [List.map_map]
    have h2 : ∀ p ∈ (sortRowsByTimestamp (t.rows.map prefillRow)).enum,
        (eraseComments ∘ reindexRow) p = (eraseComments ∘ Prod.snd) p := by
      intro p _
      rfl
    rw [List.map_congr_left h2, ← List.map_map, List.enum_map_snd]
  rw [h1]
  refine ((sortRows_perm _).map eraseComments).trans ?_
  rw [List.map_map]
  have h3 : ∀ r ∈ t.rows, (eraseComments ∘ prefillRow) r = eraseComments r := by
    intro r _
    rfl
  rw [List.map_congr_left h3]

set_option maxRecDepth 4000 in
/-- C3 counterexample: on 17 rows with identical Timestamps, the stage
does not keep the original relative order — `sort_values`' default
kind='quicksort' (NumPy introsort) partitions ranges longer than 16
elements and scrambles equal keys, so the sort is not stable. -/
theorem C3_counterexample :
    (tie17.rows.all (fun r => r.timestamp == Cell.time 0)) = true
    ∧ (clean_comments tie17).rows.map Row.sid ≠ tie17.rows.map Row.sid := by
  constructor
  · with_unfolding_all decide
  · with_unfolding_all decide

/-- C3 (amended): the Comments stage reorders the rows by NumPy's
quicksort argsort of the Timestamp column — a permutation of the rows
(here stated on the rows with their Comments cell blanked, since that is
the one cell the stage rewrites) which for tables longer than 16 rows
need not keep the original relative order of equal Timestamps — and
afterwards every Comments value is non-missing and equal to
`"Comment {i}: {content}"` where `i` is the zero-based position of the
row in the post-sort order. -/
theorem C3_comments_stage :
    (∀ t : Table, (clean_comments t).rows.length = t.rows.length)
    ∧ (∀ t : Table, ((clean_comments t).rows.map eraseComments).Perm
        (t.rows.map eraseComments))
    ∧ (∀ (t : Table) (i : ℕ), i < (clean_comments t).rows.length →
        ∃ content, ((clean_comments t).rows.getD i defaultRow).comments
          = Cell.str (commentLabel i ++ content)) := by
  refine ⟨clean_comments_length, clean_comments_map_eraseComments, ?_⟩
  intro t i hi
  rw [clean_comments_length] at hi
  have hlen : i < (sortRowsByTimestamp (t.rows.map prefillRow)).length := by
    rw [(sortRows_perm _).length_eq, List.length_map]
    exact hi
  unfold clean_comments
  dsimp only
  rw [List.getD_eq_getElem?_getD, List.getElem?_map, List.getElem?_enum]
  rw [List.getElem?_eq_getElem hlen]
  dsimp only [Option.map_some', Option.getD_some]
  obtain ⟨rest, hrest, -⟩ := standardizeComment_shape i
    ((sortRowsByTimestamp (t.rows.map prefillRow))[i].comments)
  exact ⟨rest, congrArg Cell.str hrest⟩

theorem C3_comments_stage_witness :
    (1 < (clean_comments pipeTbl).rows.length)
    ∧ (∃ content, ((clean_comments pipeTbl).rows.getD 1 defaultRow).comments
        = Cell.str (commentLabel 1 ++ content)) :=
  ⟨by with_unfolding_all decide,
   C3_comments_stage.2.2 pipeTbl 1 (by with_unfolding_all decide)⟩

/-- C8.  Row-count invariant: no stage adds a row; the Timestamp, Age,
GPA and Satisfaction stages can only remove rows, and the Student ID,
Gender, Department and Comments stages preserve the row count exactly
(for Satisfaction, when it returns a table at all). -/
theorem C8_row_counts : ∀ t : Table,
    ((clean_timestamps t).rows.length ≤ t.rows.length)
    ∧ ((clean_student_ids t).rows.length = t.rows.length)
    ∧ ((clean_ages t).rows.length ≤ t.rows.length)
    ∧ ((clean_gender t).rows.length = t.rows.length)
    ∧ ((clean_departments t).rows.length = t.rows.length)
    ∧ ((clean_gpa t).rows.length ≤ t.rows.length)
    ∧ (∀ u, clean_satisfaction t = Except.ok u →
        u.rows.length ≤ t.rows.length)
    ∧ ((clean_comments t).rows.length = t.rows.length) := by
  intro t
  refine ⟨?_, ?_, ?_, ?_, ?_, ?_, ?_, clean_comments_length t⟩
  · unfold clean_timestamps
    dsimp only
    exact (List.length_filter_le _ _).trans (by rw [List.length_map])
  · unfold clean_student_ids
    dsimp only
    rw [List.length_map]
  · rw [clean_ages_rows, List.length_map]
    exact List.length_filter_le _ _
  · unfold clean_gender
    dsimp only
    rw [List.length_map]
  · unfold clean_departments
    dsimp only
    rw [List.length_map]
  · unfold clean_gpa
    dsimp only
    refine (List.length_filter_le _ _).trans ?_
    rw [List.length_map, List.length_zip]
    exact Nat.min_le_left _ _
  · intro u hok
    unfold clean_satisfaction at hok
    split at hok
    · obtain rfl : _ = u :=
        congrArg Except.toOption hok |> Option.some.inj
      dsimp only
      refine (List.length_filter_le _ _).trans ?_
      rw [List.length_map, List.length_zip]
      exact Nat.min_le_left _ _
    · exact Except.noConfusion hok

theorem C8_row_counts_witness :
    ∃ u, clean_satisfaction satGoodTbl = Except.ok u
      ∧ u.rows.length ≤ satGoodTbl.rows.length := by
  obtain ⟨u, hu⟩ := (clean_satisfaction_ok_iff satGoodTbl).mpr
    (by with_unfolding_all decide)
  exact ⟨u, hu, (C8_row_counts satGoodTbl).2.2.2.2.2.2.1 u hu⟩

/-! ### Per-stage frame lemmas: a projection that ignores the column a
stage writes sees, after the stage, a sub-multiset of its input values -/

theorem interpolateLinear_length (xs : List (Option ℚ)) :
    (interpolateLinear xs).length = xs.length := by
  simp [interpolateLinear]

theorem proj_map_eq {α : Type} (g : Row → α) (f : Row → Row)
    (hf : ∀ r, g (f r) = g r) (rows : List Row) :
    (rows.map f).map g = rows.map g := by
  rw [List.map_map]
  exact List.map_congr_left (fun r _ => hf r)

theorem proj_filter_map_subperm {α : Type} (g : Row → α) (f : Row → Row)
    (hf : ∀ r, g (f r) = g r) (p : Row → Bool) (rows : List Row) :
    List.Subperm (((rows.map f).filter p).map g) (rows.map g) := by
  have h1 := (List.filter_sublist (l := rows.map f) (p := p)).map g
  rw [proj_map_eq g f hf] at h1
  exact h1.subperm

theorem proj_map_filter_subperm {α : Type} (g : Row → α) (f : Row → Row)
    (hf : ∀ r, g (f r) = g r) (p : Row → Bool) (rows : List Row) :
    List.Subperm (((rows.filter p).map f).map g) (rows.map g) := by
  rw [proj_map_eq g f hf]
  exact ((List.filter_sublist rows).map g).subperm

theorem proj_zip_subperm {α β : Type} (g : Row → α) (aux : List β)
    (upd : Row × β → Row) (hupd : ∀ p, g (upd p) = g p.1) (p : Row → Bool)
    (rows : List Row) (hlen : rows.length ≤ aux.length) :
    List.Subperm ((((rows.zip aux).map upd).filter p).map g) (rows.map g) := by
  have h1 := (List.filter_sublist (l := (rows.zip aux).map upd) (p := p)).map g
  have h2 : (((rows.zip aux).map upd).map g) = rows.map g := by
    rw [List.map_map]
    have h3 : ∀ q ∈ rows.zip aux, (g ∘ upd) q = (g ∘ Prod.fst) q :=
      fun q _ => hupd q
    rw [List.map_congr_left h3, ← List.map_map, List.map_fst_zip rows aux hlen]
  rw [h2] at h1
  exact h1.subperm

/-- The Comments stage permutes the values of any projection ignoring the
Comments cell. -/
theorem proj_comments_perm {α : Type} (g : Row → α)
    (hg : ∀ r c, g { r with comments := c } = g r) (t : Table) :
    ((clean_comments t).rows.map g).Perm (t.rows.map g) := by
  have h1 : (clean_comments t).rows.map g
      = ((clean_comments t).rows.map eraseComments).map g := by
    rw [List.map_map]
    exact List.map_congr_left (fun r _ => (hg r _).symm)
  have h2 : t.rows.map g = (t.rows.map eraseComments).map g := by
    rw [List.map_map]
    exact List.map_congr_left (fun r _ => (hg r _).symm)
  rw [h1, h2]
  exact (clean_comments_map_eraseComments t).map g

theorem proj_ts_subperm {α : Type} (g : Row → α)
    (hg : ∀ r c, g { r with timestamp := c } = g r) (t : Table) :
    List.Subperm ((clean_timestamps t).rows.map g) (t.rows.map g) := by
  unfold clean_timestamps
  dsimp only
  exact proj_filter_map_subperm g _ (fun r => hg r _) _ t.rows

theorem proj_sid_eq {α : Type} (g : Row → α)
    (hg : ∀ r c, g { r with sid := c } = g r) (t : Table) :
    (clean_student_ids t).rows.map g = t.rows.map g := by
  unfold clean_student_ids
  dsimp only
  exact proj_map_eq g _ (fun r => hg r _) t.rows

theorem proj_ages_subperm {α : Type} (g : Row → α)
    (hg : ∀ r c, g { r with age := c } = g r) (t : Table) :
    List.Subperm ((clean_ages t).rows.map g) (t.rows.map g) := by
  rw [clean_ages_rows]
  have h1 : ((t.rows.filter ageKeep).map ageCast).map g
      = (t.rows.filter ageKeep).map g := by
    rw [List.map_map]
    refine List.map_congr_left (fun r _ => ?_)
    show g (ageCast r) = g r
    unfold ageCast
    exact hg r _
  rw [h1]
  exact ((List.filter_sublist t.rows).map g).subperm

theorem proj_gender_eq {α : Type} (g : Row → α)
    (hg : ∀ r c, g { r with gender := c } = g r) (t : Table) :
    (clean_gender t).rows.map g = t.rows.map g := by
  unfold clean_gender
  dsimp only
  exact proj_map_eq g _ (fun r => hg r _) t.rows

theorem proj_dept_eq {α : Type} (g : Row → α)
    (hg : ∀ r c, g { r with department := c } = g r) (t : Table) :
    (clean_departments t).rows.map g = t.rows.map g := by
  unfold clean_departments
  dsimp only
  exact proj_map_eq g _ (fun r => hg r _) t.rows

theorem proj_gpa_subperm {α : Type} (g : Row → α)
    (hg : ∀ r c, g { r with gpa := c } = g r) (t : Table) :
    List.Subperm ((clean_gpa t).rows.map g) (t.rows.map g) := by
  unfold clean_gpa
  dsimp only
  refine proj_zip_subperm g _ _ (fun p => hg p.1 _) _ t.rows ?_
  rw [List.length_map, interpolateLinear_length, List.length_map]

theorem proj_sat_subperm {α : Type} (g : Row → α)
    (hg : ∀ r c, g { r with satisfaction := c } = g r) (t u : Table)
    (hok : clean_satisfaction t = Except.ok u) :
    List.Subperm (u.rows.map g) (t.rows.map g) := by
  unfold clean_satisfaction at hok
  split at hok
  · obtain rfl : _ = u := congrArg Except.toOption hok |> Option.some.inj
    dsimp only
    refine proj_zip_subperm g _ _ (fun p => hg p.1 _) _ t.rows ?_
    rw [List.length_map, interpolateLinear_length, List.length_map]
  · exact Except.noConfusion hok

theorem clean_satisfaction_header (t u : Table)
    (hok : clean_satisfaction t = Except.ok u) : u.header = t.header := by
  unfold clean_satisfaction at hok
  split at hok
  · obtain rfl : _ = u := congrArg Except.toOption hok |> Option.some.inj
    rfl
  · exact Except.noConfusion hok

/-- C9.  Frame property: the pipeline renames only `Student ID` in the
header (column order otherwise preserved), and the `extra` (unnamed)
columns of every surviving row carry exactly their raw input values — the
surviving extras form a sub-multiset of the input extras, untouched by
every stage. -/
theorem C9_extra_columns : ∀ (t u : Table), clean_dataset t = Except.ok u →
    u.header = renameSid t.header
    ∧ List.Subperm (u.rows.map Row.extra) (t.rows.map Row.extra) := by
  intro t u h
  unfold clean_dataset at h
  dsimp only at h
  split at h
  next t7 heq =>
    obtain rfl := Except.ok.inj h
    constructor
    · have h7 := clean_satisfaction_header _ _ heq
      show (clean_comments t7).header = renameSid t.header
      have hcc : (clean_comments t7).header = t7.header := rfl
      rw [hcc, h7]
      rfl
    · have s8 := (proj_comments_perm Row.extra (fun r c => rfl) t7).subperm
      have s7 := proj_sat_subperm Row.extra (fun r c => rfl) _ _ heq
      have s6 := proj_gpa_subperm Row.extra (fun r c => rfl)
        (clean_departments (clean_gender (clean_ages
          (clean_student_ids (clean_timestamps t)))))
      have s5 := proj_dept_eq Row.extra (fun r c => rfl)
        (clean_gender (clean_ages (clean_student_ids (clean_timestamps t))))
      have s4 := proj_gender_eq Row.extra (fun r c => rfl)
        (clean_ages (clean_student_ids (clean_timestamps t)))
      have s3 := proj_ages_subperm Row.extra (fun r c => rfl)
        (clean_student_ids (clean_timestamps t))
      have s2 := proj_sid_eq Row.extra (fun r c => rfl) (clean_timestamps t)
      have s1 := proj_ts_subperm Row.extra (fun r c => rfl) t
      refine s8.trans (s7.trans (s6.trans ?_))
      rw [s5, s4]
      refine s3.trans ?_
      rw [s2]
      exact s1
  next e heq => exact Except.noConfusion h

theorem C9_extra_columns_witness :
    ∃ u, clean_dataset pipeTbl = Except.ok u
      ∧ u.header = renameSid pipeTbl.header
      ∧ List.Subperm (u.rows.map Row.extra) (pipeTbl.rows.map Row.extra) := by
  have h : ∃ u, clean_dataset pipeTbl = Except.ok u := by
    unfold clean_dataset
    dsimp only
    split
    · exact ⟨_, rfl⟩
    · next e heq =>
      obtain ⟨u, hu⟩ := (clean_satisfaction_ok_iff
        (clean_gpa (clean_departments (clean_gender (clean_ages
          (clean_student_ids (clean_timestamps pipeTbl))))))).mpr
        (by with_unfolding_all decide)
      rw [hu] at heq
      exact Except.noConfusion heq
  obtain ⟨u, hu⟩ := h
  exact ⟨u, hu, (C9_extra_columns pipeTbl u hu).1,
    (C9_extra_columns pipeTbl u hu).2⟩

/-- C10.  The Student ID stage never removes a row and never fills a
default: a missing Student ID is still missing after lower-casing and
trimming; no later stage writes the Student_ID column (each later stage
passes the multiset of Student_ID values through, at most dropping rows,
and the Comments stage only permutes it); and the full pipeline can
output a table containing a row with a missing Student_ID. -/
theorem C10_student_id :
    (∀ t : Table, (clean_student_ids t).rows.length = t.rows.length)
    ∧ strLowerStrip Cell.missing = Cell.missing
    ∧ (∀ (t : Table) (i : ℕ), i < t.rows.length →
        (t.rows.getD i defaultRow).sid = Cell.missing →
        ((clean_student_ids t).rows.getD i defaultRow).sid = Cell.missing)
    ∧ (∀ t : Table,
        List.Subperm ((clean_ages t).rows.map Row.sid) (t.rows.map Row.sid))
    ∧ (∀ t : Table, (clean_gender t).rows.map Row.sid = t.rows.map Row.sid)
    ∧ (∀ t : Table,
        (clean_departments t).rows.map Row.sid = t.rows.map Row.sid)
    ∧ (∀ t : Table,
        List.Subperm ((clean_gpa t).rows.map Row.sid) (t.rows.map Row.sid))
    ∧ (∀ t u : Table, clean_satisfaction t = Except.ok u →
        List.Subperm (u.rows.map Row.sid) (t.rows.map Row.sid))
    ∧ (∀ t : Table,
        ((clean_comments t).rows.map Row.sid).Perm (t.rows.map Row.sid))
    ∧ ((clean_dataset pipeTbl).toOption.map
        (fun u => u.rows.any (fun r => r.sid == Cell.missing))) = some true := by
  refine ⟨?_, rfl, ?_,
    fun t => proj_ages_subperm Row.sid (fun r c => rfl) t,
    fun t => proj_gender_eq Row.sid (fun r c => rfl) t,
    fun t => proj_dept_eq Row.sid (fun r c => rfl) t,
    fun t => proj_gpa_subperm Row.sid (fun r c => rfl) t,
    fun t u hok => proj_sat_subperm Row.sid (fun r c => rfl) t u hok,
    fun t => proj_comments_perm Row.sid (fun r c => rfl) t,
    by with_unfolding_all decide⟩
  · intro t
    unfold clean_student_ids
    dsimp only
    rw [List.length_map]
  · intro t i hi hmiss
    unfold clean_student_ids
    dsimp only
    rw [List.getD_eq_getElem?_getD, List.getElem?_map,
      List.getElem?_eq_getElem hi]
    rw [List.getD_eq_getElem?_getD, List.getElem?_eq_getElem hi] at hmiss
    dsimp only [Option.map_some', Option.getD_some] at *
    show strLowerStrip (t.rows[i]).sid = Cell.missing
    rw [hmiss]
    rfl

theorem C10_student_id_witness :
    ((0 < pipeTbl.rows.length)
      ∧ (pipeTbl.rows.getD 0 defaultRow).sid = Cell.missing
      ∧ ((clean_student_ids pipeTbl).rows.getD 0 defaultRow).sid
          = Cell.missing)
    ∧ (∃ u, clean_satisfaction satGoodTbl = Except.ok u
        ∧ List.Subperm (u.rows.map Row.sid) (satGoodTbl.rows.map Row.sid)) := by
  refine ⟨⟨by with_unfolding_all decide, by with_unfolding_all decide,
    C10_student_id.2.2.1 pipeTbl 0 (by with_unfolding_all decide)
      (by with_unfolding_all decide)⟩, ?_⟩
  obtain ⟨u, hu⟩ := (clean_satisfaction_ok_iff satGoodTbl).mpr
    (by with_unfolding_all decide)
  exact ⟨u, hu, C10_student_id.2.2.2.2.2.2.2.1 satGoodTbl u hu⟩

/-! ### Normalized-comment grammar lemmas -/

theorem digitChar_isDigit (n : ℕ) (h : n < 10) :
    (Nat.digitChar n).isDigit = true := by
  interval_cases n <;> decide

theorem toDigitsCore_digits (fuel : ℕ) :
    ∀ (n : ℕ) (acc : List Char), (∀ ch ∈ acc, ch.isDigit = true) →
      ∀ ch ∈ Nat.toDigitsCore 10 fuel n acc, ch.isDigit = true := by
  induction fuel with
  | zero => intro n acc hacc; exact hacc
  | succ f ih =>
    intro n acc hacc
    unfold Nat.toDigitsCore
    dsimp only
    have hcons : ∀ ch ∈ Nat.digitChar (n % 10) :: acc, ch.isDigit = true := by
      intro ch hch
      rcases List.mem_cons.mp hch with rfl | h2
      · exact digitChar_isDigit _ (Nat.mod_lt _ (by norm_num))
      · exact hacc ch h2
    split
    · exact hcons
    · exact ih _ _ hcons

theorem toDigits_digits (n : ℕ) :
    ∀ ch ∈ Nat.toDigits 10 n, ch.isDigit = true :=
  toDigitsCore_digits (n + 1) n [] (by intro ch hch; simp at hch)

theorem splitFirst_append (sep : Char) (l₁ l₂ : Str)
    (h : ∀ ch ∈ l₁, ch ≠ sep) :
    splitFirst sep (l₁ ++ sep :: l₂) = some (l₁, l₂) := by
  induction l₁ with
  | nil => simp [splitFirst]
  | cons a as ih =>
    rw [List.cons_append]
    show (if a = sep then some ([], as ++ sep :: l₂)
      else (splitFirst sep (as ++ sep :: l₂)).map
        (fun p => (a :: p.1, p.2))) = some (a :: as, l₂)
    rw [if_neg (h a (by simp)), ih (fun ch hch => h ch (by simp [hch]))]
    rfl

theorem pyStrip_cons_space (x : Str) : pyStrip (' ' :: x) = pyStrip x := by
  unfold pyStrip
  rw [List.dropWhile_cons]
  norm_num [isPySpace]

/-- The digit strings of comment labels contain no colon. -/
theorem digits_ne_colon (ds : Str) (hds : ∀ ch ∈ ds, ch.isDigit = true) :
    ∀ ch ∈ "Comment ".data ++ ds, ch ≠ ':' := by
  intro ch hch
  rcases List.mem_append.mp hch with h1 | h2
  · intro hc
    subst hc
    exact absurd h1 (by decide)
  · intro hc
    subst hc
    exact absurd (hds ':' h2) (by decide)

/-- Splitting a labelled comment at its first colon isolates the label
from the content. -/
theorem splitFirst_label (ds c : Str) (hds : ∀ ch ∈ ds, ch.isDigit = true) :
    splitFirst ':' ("Comment ".data ++ ds ++ ": ".data ++ c)
      = some ("Comment ".data ++ ds, ' ' :: c) := by
  have hform : "Comment ".data ++ ds ++ ": ".data ++ c
      = ("Comment ".data ++ ds) ++ ':' :: (' ' :: c) := by
    rw [List.append_assoc]
    rfl
  rw [hform]
  exact splitFirst_append ':' _ _ (digits_ne_colon ds hds)

/-- Running the comment normalizer on an already-normalized comment
`"Comment {ds}: {c}"` (digit label, trim-fixed content) keeps the content
and rewrites only the index. -/
theorem standardizeComment_wrapped (i : ℕ) (ds c : Str)
    (hds : ∀ ch ∈ ds, ch.isDigit = true) (hc : pyStrip c = c) :
    standardizeComment i
        (Cell.str ("Comment ".data ++ ds ++ ": ".data ++ c))
      = commentLabel i ++ c := by
  have hspam : pyStartsWith ("Comment ".data ++ ds ++ ": ".data ++ c)
      spamText = false := by
    with_unfolding_all rfl
  have hcomm : pyStartsWith ("Comment ".data ++ ds ++ ": ".data ++ c)
      "Comment".data = true := by
    with_unfolding_all rfl
  simp only [standardizeComment]
  rw [if_neg (by rw [hspam]; exact Bool.false_ne_true), if_pos hcomm,
    splitFirst_label ds c hds]
  dsimp only
  rw [pyStrip_cons_space, hc]

/-- Extracting the content of a labelled comment returns the content. -/
theorem cellContent_label (ds X : Str) (hds : ∀ ch ∈ ds, ch.isDigit = true)
    (hX : pyStrip X = X) :
    cellContent (Cell.str ("Comment ".data ++ ds ++ ": ".data ++ X)) = X := by
  simp only [cellContent]
  rw [splitFirst_label ds X hds]
  dsimp only
  rw [pyStrip_cons_space, hX]

/-- `commentLabel i ++ X` in the labelled-comment normal form. -/
theorem commentLabel_append (i : ℕ) (X : Str) :
    commentLabel i ++ X
      = "Comment ".data ++ Nat.toDigits 10 i ++ ": ".data ++ X := by
  unfold commentLabel
  simp [List.append_assoc]

/-! ### Row-origin lemmas: each stage's output rows come from input rows,
with every column the stage does not write carried over unchanged -/

theorem mem_origin_ts {α : Type} (g : Row → α)
    (hg : ∀ r c, g { r with timestamp := c } = g r) (t : Table) :
    ∀ r ∈ (clean_timestamps t).rows, ∃ r0 ∈ t.rows, g r = g r0 := by
  intro r hr
  unfold clean_timestamps at hr
  dsimp only at hr
  obtain ⟨hmem, -⟩ := List.mem_filter.mp hr
  obtain ⟨r0, hr0, rfl⟩ := List.mem_map.mp hmem
  exact ⟨r0, hr0, hg r0 _⟩

theorem mem_origin_sid {α : Type} (g : Row → α)
    (hg : ∀ r c, g { r with sid := c } = g r) (t : Table) :
    ∀ r ∈ (clean_student_ids t).rows, ∃ r0 ∈ t.rows, g r = g r0 := by
  intro r hr
  unfold clean_student_ids at hr
  dsimp only at hr
  obtain ⟨r0, hr0, rfl⟩ := List.mem_map.mp hr
  exact ⟨r0, hr0, hg r0 _⟩

theorem mem_origin_ages {α : Type} (g : Row → α)
    (hg : ∀ r c, g { r with age := c } = g r) (t : Table) :
    ∀ r ∈ (clean_ages t).rows, ∃ r0 ∈ t.rows, g r = g r0 := by
  intro r hr
  rw [clean_ages_rows] at hr
  obtain ⟨r0, hr0, rfl⟩ := List.mem_map.mp hr
  obtain ⟨hmem, -⟩ := List.mem_filter.mp hr0
  refine ⟨r0, hmem, ?_⟩
  show g (ageCast r0) = g r0
  unfold ageCast
  exact hg r0 _

theorem mem_origin_gender {α : Type} (g : Row → α)
    (hg : ∀ r c, g { r with gender := c } = g r) (t : Table) :
    ∀ r ∈ (clean_gender t).rows, ∃ r0 ∈ t.rows, g r = g r0 := by
  intro r hr
  unfold clean_gender at hr
  dsimp only at hr
  obtain ⟨r0, hr0, rfl⟩ := List.mem_map.mp hr
  exact ⟨r0, hr0, hg r0 _⟩

theorem mem_origin_dept {α : Type} (g : Row → α)
    (hg : ∀ r c, g { r with department := c } = g r) (t : Table) :
    ∀ r ∈ (clean_departments t).rows, ∃ r0 ∈ t.rows, g r = g r0 := by
  intro r hr
  unfold clean_departments at hr
  dsimp only at hr
  obtain ⟨r0, hr0, rfl⟩ := List.mem_map.mp hr
  exact ⟨r0, hr0, hg r0 _⟩

theorem mem_origin_gpa {α : Type} (g : Row → α)
    (hg : ∀ r c, g { r with gpa := c } = g r) (t : Table) :
    ∀ r ∈ (clean_gpa t).rows, ∃ r0 ∈ t.rows, g r = g r0 := by
  intro r hr
  unfold clean_gpa at hr
  dsimp only at hr
  obtain ⟨hmem, -⟩ := List.mem_filter.mp hr
  obtain ⟨p, hp, rfl⟩ := List.mem_map.mp hmem
  exact ⟨p.1, (List.of_mem_zip hp).1, hg p.1 _⟩

theorem mem_origin_sat {α : Type} (g : Row → α)
    (hg : ∀ r c, g { r with satisfaction := c } = g r) (t u : Table)
    (hok : clean_satisfaction t = Except.ok u) :
    ∀ r ∈ u.rows, ∃ r0 ∈ t.rows, g r = g r0 := by
  unfold clean_satisfaction at hok
  split at hok
  · obtain rfl : _ = u := congrArg Except.toOption hok |> Option.some.inj
    intro r hr
    dsimp only at hr
    obtain ⟨hmem, -⟩ := List.mem_filter.mp hr
    obtain ⟨p, hp, rfl⟩ := List.mem_map.mp hmem
    exact ⟨p.1, (List.of_mem_zip hp).1, hg p.1 _⟩
  · exact Except.noConfusion hok

theorem mem_origin_comments {α : Type} (g : Row → α)
    (hg : ∀ r c, g { r with comments := c } = g r) (t : Table) :
    ∀ r ∈ (clean_comments t).rows, ∃ r0 ∈ t.rows, g r = g r0 := by
  intro r hr
  unfold clean_comments at hr
  dsimp only at hr
  obtain ⟨p, hp, rfl⟩ := List.mem_map.mp hr
  have hp2 : p.2 ∈ sortRowsByTimestamp (t.rows.map prefillRow) := by
    rw [List.mem_enum_iff_getElem?] at hp
    exact List.getElem?_mem hp
  have hp3 : p.2 ∈ t.rows.map prefillRow := (sortRows_perm _).mem_iff.mp hp2
  obtain ⟨r0, hr0, heq⟩ := List.mem_map.mp hp3
  refine ⟨r0, hr0, ?_⟩
  have h1 : g (reindexRow p) = g p.2 := by
    unfold reindexRow
    exact hg p.2 _
  rw [h1, ← heq]
  show g (prefillRow r0) = g r0
  unfold prefillRow
  exact hg r0 _

/-! ### The filtering stages fix tables that already satisfy the
pipeline's row invariants (the heart of second-run idempotence) -/

theorem table_eq (a b : Table) (h1 : a.header = b.header)
    (h2 : a.rows = b.rows) : a = b := by
  cases a with
  | mk ha ra =>
    cases b with
    | mk hb rb =>
      dsimp at h1 h2
      rw [h1, h2]

theorem mem_clean_timestamps_time (t : Table) :
    ∀ r ∈ (clean_timestamps t).rows, ∃ v : ℤ, r.timestamp = Cell.time v := by
  intro r hr
  unfold clean_timestamps at hr
  dsimp only at hr
  obtain ⟨hmem, hne⟩ := List.mem_filter.mp hr
  obtain ⟨r0, hr0, rfl⟩ := List.mem_map.mp hmem
  cases h : toDatetime r0.timestamp with
  | some v => exact ⟨v, by simp [h]⟩
  | none =>
    exfalso
    simp [h] at hne

theorem mem_clean_ages_shape (t : Table) :
    ∀ r ∈ (clean_ages t).rows,
      ∃ n : ℤ, r.age = Cell.num (n : ℚ) ∧ 18 ≤ n ∧ n ≤ 60 := by
  intro r h
  rw [clean_ages_rows] at h
  rw [List.mem_map] at h
  obtain ⟨r0, hr0, rfl⟩ := h
  rw [List.mem_filter] at hr0
  obtain ⟨-, hk⟩ := hr0
  unfold ageKeep at hk
  cases hn : pyToNumeric r0.age with
  | none => rw [hn] at hk; simp at hk
  | some q =>
    rw [hn] at hk
    simp only [Bool.and_eq_true, decide_eq_true_eq] at hk
    obtain ⟨h18, h60⟩ := hk
    have h0 : (0 : ℚ) ≤ q := le_trans (by norm_num) h18
    refine ⟨ratTrunc q, ?_, ?_, ?_⟩
    · unfold ageCast
      rw [hn]
    · unfold ratTrunc
      rw [if_pos h0]
      exact Int.le_floor.mpr (by exact_mod_cast h18)
    · unfold ratTrunc
      rw [if_pos h0]
      have hle := (Int.floor_le q).trans h60
      exact_mod_cast hle

theorem ratTrunc_intCast (n : ℤ) : ratTrunc ((n : ℤ) : ℚ) = n := by
  unfold ratTrunc
  rcases le_or_lt 0 ((n : ℤ) : ℚ) with h | h
  · rw [if_pos h, Int.floor_intCast]
  · rw [if_neg (not_le.mpr h), ← Int.cast_neg, Int.floor_intCast]
    exact neg_neg n

theorem round2_fix (q : ℚ) (z : ℤ) (hz : q * 100 = (z : ℚ)) :
    round2 q = q := by
  unfold round2
  rw [hz]
  have h1 : intRoundHalfEven ((z : ℤ) : ℚ) = z := by
    unfold intRoundHalfEven
    rw [Int.floor_intCast]
    rw [if_pos]
    rw [sub_self]
    norm_num
  rw [h1, ← hz, mul_div_cancel_right₀ q (by norm_num : (100 : ℚ) ≠ 0)]

theorem interpolateLinear_all_some (xs : List (Option ℚ))
    (h : ∀ x ∈ xs, x.isSome = true) : interpolateLinear xs = xs := by
  apply List.ext_getElem (interpolateLinear_length xs)
  intro i h1 h2
  have hs := h xs[i] (List.getElem_mem h2)
  obtain ⟨v, hv⟩ := Option.isSome_iff_exists.mp hs
  have hxv : xs.getD i none = some v := by
    rw [List.getD_eq_getElem?_getD, List.getElem?_eq_getElem h2, hv]
    rfl
  have hint := interpAt_some xs i v hxv
  have hgd : (interpolateLinear xs).getD i none = interpAt xs i :=
    interpolateLinear_getD xs i h2
  rw [List.getD_eq_getElem?_getD, List.getElem?_eq_getElem h1] at hgd
  simp only [Option.getD_some] at hgd
  rw [hgd, hint, hv]

/-- Run 2 of the Timestamp stage: already-parsed timestamps parse to
themselves and no row is dropped. -/
theorem second_ts (u : Table) (hu : ∀ r ∈ u.rows, RowOk r) :
    clean_timestamps u = u := by
  unfold clean_timestamps
  have hmap : u.rows.map (fun r =>
      { r with timestamp :=
          match toDatetime r.timestamp with
          | some v => Cell.time v
          | none => Cell.missing }) = u.rows := by
    have h1 : ∀ r ∈ u.rows, (fun r : Row =>
        { r with timestamp :=
            match toDatetime r.timestamp with
            | some v => Cell.time v
            | none => Cell.missing }) r = id r := by
      intro r hr
      obtain ⟨⟨v, hv⟩, -⟩ := hu r hr
      show ({ r with timestamp := _ } : Row) = r
      rw [hv]
      show ({ r with timestamp := Cell.time v } : Row) = r
      rw [← hv]
    rw [List.map_congr_left h1, List.map_id]
  dsimp only
  rw [hmap]
  have hfil : u.rows.filter (fun r => decide (r.timestamp ≠ Cell.missing))
      = u.rows := by
    rw [List.filter_eq_self]
    intro r hr
    obtain ⟨⟨v, hv⟩, -⟩ := hu r hr
    simp [hv]
  rw [hfil]

/-- Run 2 of the Age stage: integer in-range ages pass the filter and the
integer cast is the identity on them. -/
theorem second_ages (u : Table) (hu : ∀ r ∈ u.rows, RowOk r) :
    clean_ages u = u := by
  refine table_eq _ _ rfl ?_
  rw [clean_ages_rows]
  have hfil : u.rows.filter ageKeep = u.rows := by
    rw [List.filter_eq_self]
    intro r hr
    obtain ⟨-, ⟨n, hn, h18, h60⟩, -, -⟩ := hu r hr
    unfold ageKeep
    rw [hn]
    show (decide (18 ≤ ((n : ℤ) : ℚ)) && decide (((n : ℤ) : ℚ) ≤ 60)) = true
    rw [decide_eq_true (by exact_mod_cast h18),
      decide_eq_true (by exact_mod_cast h60)]
    rfl
  rw [hfil]
  have h1 : ∀ r ∈ u.rows, ageCast r = id r := by
    intro r hr
    obtain ⟨-, ⟨n, hn, -, -⟩, -, -⟩ := hu r hr
    unfold ageCast
    rw [hn]
    show ({ r with age := Cell.num ((ratTrunc ((n : ℤ) : ℚ) : ℤ) : ℚ) } : Row) = r
    rw [ratTrunc_intCast, ← hn]
  rw [List.map_congr_left h1, List.map_id]

theorem zip_map_self {β : Type} (g : Row → β) :
    ∀ l : List Row, l.zip (l.map g) = l.map (fun r => (r, g r)) := by
  intro l
  induction l with
  | nil => rfl
  | cons a t ih => simp [ih]

/-- Run 2 of the GPA stage: numeric GPAs that are `>= 1` with an integer
number of hundredths are fixed by replace/coerce/interpolate/round and
pass the filter. -/
theorem second_gpa (u : Table) (hu : ∀ r ∈ u.rows, RowOk r) :
    clean_gpa u = u := by
  refine table_eq _ _ rfl ?_
  unfold clean_gpa
  dsimp only
  have hco : u.rows.map (fun r => pyToNumeric (gradeMap r.gpa))
      = u.rows.map (fun r => cellToOptNum r.gpa) := by
    refine List.map_congr_left (fun r hr => ?_)
    obtain ⟨-, -, ⟨q, hq, -, -⟩, -⟩ := hu r hr
    rw [hq]
    rfl
  rw [hco]
  have hsome : ∀ x ∈ u.rows.map (fun r => cellToOptNum r.gpa),
      x.isSome = true := by
    intro x hx
    obtain ⟨r, hr, hxe⟩ := List.mem_map.mp hx
    obtain ⟨-, -, ⟨q, hq, -, -⟩, -⟩ := hu r hr
    rw [← hxe, hq]
    rfl
  rw [interpolateLinear_all_some _ hsome]
  have hround : (u.rows.map (fun r => cellToOptNum r.gpa)).map
        (Option.map round2)
      = u.rows.map (fun r => cellToOptNum r.gpa) := by
    rw [List.map_map]
    refine List.map_congr_left (fun r hr => ?_)
    obtain ⟨-, -, ⟨q, hq, -, z, hz⟩, -⟩ := hu r hr
    show Option.map round2 (cellToOptNum r.gpa) = cellToOptNum r.gpa
    rw [hq]
    show some (round2 q) = some q
    rw [round2_fix q z hz]
  rw [hround, zip_map_self, List.map_map]
  have hupd : ∀ r ∈ u.rows,
      ((fun p : Row × Option ℚ => { p.1 with gpa := optToCell p.2 })
        ∘ (fun r : Row => (r, cellToOptNum r.gpa))) r = id r := by
    intro r hr
    obtain ⟨-, -, ⟨q, hq, -, -⟩, -⟩ := hu r hr
    show ({ r with gpa := optToCell (cellToOptNum r.gpa) } : Row) = r
    rw [hq]
    show ({ r with gpa := Cell.num q } : Row) = r
    rw [← hq]
  rw [List.map_congr_left hupd, List.map_id]
  rw [List.filter_eq_self]
  intro r hr
  obtain ⟨-, -, ⟨q, hq, hq1, -⟩, -⟩ := hu r hr
  unfold cellGeOne
  rw [hq]
  exact decide_eq_true hq1

/-- Run 2 of the Satisfaction stage: an all-numeric column is accepted and
fixed, so the stage returns its input unchanged. -/
theorem second_sat (u : Table) (hu : ∀ r ∈ u.rows, RowOk r) :
    clean_satisfaction u = Except.ok u := by
  unfold clean_satisfaction
  rw [if_pos (List.all_eq_true.mpr (fun r hr => by
    obtain ⟨-, -, -, ⟨q, hq, -, -⟩⟩ := hu r hr
    unfold satCellOk
    rw [hq]))]
  refine congrArg Except.ok (table_eq _ _ rfl ?_)
  dsimp only
  have hsome : ∀ x ∈ u.rows.map (fun r => cellToOptNum r.satisfaction),
      x.isSome = true := by
    intro x hx
    obtain ⟨r, hr, hxe⟩ := List.mem_map.mp hx
    obtain ⟨-, -, -, ⟨q, hq, -, -⟩⟩ := hu r hr
    rw [← hxe, hq]
    rfl
  rw [interpolateLinear_all_some _ hsome]
  have hround : (u.rows.map (fun r => cellToOptNum r.satisfaction)).map
        (Option.map round2)
      = u.rows.map (fun r => cellToOptNum r.satisfaction) := by
    rw [List.map_map]
    refine List.map_congr_left (fun r hr => ?_)
    obtain ⟨-, -, -, ⟨q, hq, -, z, hz⟩⟩ := hu r hr
    show Option.map round2 (cellToOptNum r.satisfaction)
      = cellToOptNum r.satisfaction
    rw [hq]
    show some (round2 q) = some q
    rw [round2_fix q z hz]
  rw [hround, zip_map_self, List.map_map]
  have hupd : ∀ r ∈ u.rows,
      ((fun p : Row × Option ℚ => { p.1 with satisfaction := optToCell p.2 })
        ∘ (fun r : Row => (r, cellToOptNum r.satisfaction))) r = id r := by
    intro r hr
    obtain ⟨-, -, -, ⟨q, hq, -, -⟩⟩ := hu r hr
    show ({ r with satisfaction := optToCell (cellToOptNum r.satisfaction) }
      : Row) = r
    rw [hq]
    show ({ r with satisfaction := Cell.num q } : Row) = r
    rw [← hq]
  rw [List.map_congr_left hupd, List.map_id]
  rw [List.filter_eq_self]
  intro r hr
  obtain ⟨-, -, -, ⟨q, hq, hq1, -⟩⟩ := hu r hr
  unfold cellGeOne
  rw [hq]
  exact decide_eq_true hq1

theorem rowOk_of_eq (r r' : Row)
    (h : (r.timestamp, r.age, r.gpa, r.satisfaction)
      = (r'.timestamp, r'.age, r'.gpa, r'.satisfaction))
    (h' : RowOk r') : RowOk r := by
  simp only [Prod.mk.injEq] at h
  obtain ⟨e1, e2, e3, e4⟩ := h
  unfold RowOk at h' ⊢
  rw [e1, e2, e3, e4]
  exact h'

/-- Every row of the pipeline's output satisfies the row invariants and
carries a label-shaped comment. -/
theorem clean_dataset_rows_ok (t u : Table)
    (hok : clean_dataset t = Except.ok u) :
    ∀ r ∈ u.rows, RowOk r ∧ CommentShaped r := by
  unfold clean_dataset at hok
  dsimp only at hok
  split at hok
  next t7 heq =>
    obtain rfl := Except.ok.inj hok
    intro r hr
    constructor
    · refine ⟨?_, ?_, ?_, ?_⟩
      · obtain ⟨r6, h6, e6⟩ :=
          mem_origin_comments Row.timestamp (fun r c => rfl) t7 r hr
        obtain ⟨r5, h5, e5⟩ :=
          mem_origin_sat Row.timestamp (fun r c => rfl) _ _ heq r6 h6
        obtain ⟨r4, h4, e4⟩ :=
          mem_origin_gpa Row.timestamp (fun r c => rfl) _ r5 h5
        obtain ⟨r3, h3, e3⟩ :=
          mem_origin_dept Row.timestamp (fun r c => rfl) _ r4 h4
        obtain ⟨r2, h2, e2⟩ :=
          mem_origin_gender Row.timestamp (fun r c => rfl) _ r3 h3
        obtain ⟨r1, h1, e1⟩ :=
          mem_origin_ages Row.timestamp (fun r c => rfl) _ r2 h2
        obtain ⟨r0, h0, e0⟩ :=
          mem_origin_sid Row.timestamp (fun r c => rfl) _ r1 h1
        obtain ⟨v, hv⟩ := mem_clean_timestamps_time t r0 h0
        exact ⟨v, by rw [e6, e5, e4, e3, e2, e1, e0, hv]⟩
      · obtain ⟨r6, h6, e6⟩ :=
          mem_origin_comments Row.age (fun r c => rfl) t7 r hr
        obtain ⟨r5, h5, e5⟩ :=
          mem_origin_sat Row.age (fun r c => rfl) _ _ heq r6 h6
        obtain ⟨r4, h4, e4⟩ :=
          mem_origin_gpa Row.age (fun r c => rfl) _ r5 h5
        obtain ⟨r3, h3, e3⟩ :=
          mem_origin_dept Row.age (fun r c => rfl) _ r4 h4
        obtain ⟨r2, h2, e2⟩ :=
          mem_origin_gender Row.age (fun r c => rfl) _ r3 h3
        obtain ⟨n, hn, hn1, hn2⟩ := mem_clean_ages_shape _ r2 h2
        exact ⟨n, by rw [e6, e5, e4, e3, e2, hn], hn1, hn2⟩
      · obtain ⟨r6, h6, e6⟩ :=
          mem_origin_comments Row.gpa (fun r c => rfl) t7 r hr
        obtain ⟨r5, h5, e5⟩ :=
          mem_origin_sat Row.gpa (fun r c => rfl) _ _ heq r6 h6
        obtain ⟨q, hq, hq1, hq2⟩ := mem_clean_gpa_shape _ r5 h5
        exact ⟨q, by rw [e6, e5, hq], hq1, hq2⟩
      · obtain ⟨r6, h6, e6⟩ :=
          mem_origin_comments Row.satisfaction (fun r c => rfl) t7 r hr
        obtain ⟨q, hq, hq1, hq2⟩ :=
          mem_clean_satisfaction_shape _ _ r6 heq h6
        exact ⟨q, by rw [e6, hq], hq1, hq2⟩
    · unfold clean_comments at hr
      dsimp only at hr
      obtain ⟨p, hp, rfl⟩ := List.mem_map.mp hr
      obtain ⟨rest, hrest, hstrip⟩ := standardizeComment_shape p.1 p.2.comments
      refine ⟨Nat.toDigits 10 p.1, rest, toDigits_digits p.1, hstrip, ?_⟩
      show (reindexRow p).comments = _
      unfold reindexRow
      dsimp only
      rw [hrest, commentLabel_append]
  next e heq => exact Except.noConfusion hok

/-- The Comments stage keeps the multiset of comment contents of a table
of label-shaped comments, only reindexing the labels. -/
theorem contents_clean_comments (T : Table)
    (hshape : ∀ r ∈ T.rows, CommentShaped r) :
    ((clean_comments T).rows.map rowCommentContent).Perm
      (T.rows.map rowCommentContent) := by
  unfold clean_comments
  dsimp only
  have hshape1 : ∀ r ∈ T.rows.map prefillRow, CommentShaped r := by
    intro r hr
    obtain ⟨r0, hr0, rfl⟩ := List.mem_map.mp hr
    obtain ⟨ds, X, hh1, hh2, hh3⟩ := hshape r0 hr0
    refine ⟨ds, X, hh1, hh2, ?_⟩
    show ({ r0 with comments := fillnaCell _ r0.comments } : Row).comments = _
    dsimp only
    rw [hh3]
    rfl
  have hshape2 : ∀ r ∈ sortRowsByTimestamp (T.rows.map prefillRow),
      CommentShaped r :=
    fun r hr => hshape1 r ((sortRows_perm _).mem_iff.mp hr)
  have hpoint : ∀ p ∈ (sortRowsByTimestamp (T.rows.map prefillRow)).enum,
      (rowCommentContent ∘ reindexRow) p
        = (rowCommentContent ∘ Prod.snd) p := by
    intro p hp
    have hp2 : p.2 ∈ sortRowsByTimestamp (T.rows.map prefillRow) := by
      rw [List.mem_enum_iff_getElem?] at hp
      exact List.getElem?_mem hp
    obtain ⟨ds, X, hh1, hh2, hh3⟩ := hshape2 p.2 hp2
    show rowCommentContent (reindexRow p) = rowCommentContent p.2
    unfold rowCommentContent reindexRow
    dsimp only
    rw [hh3, standardizeComment_wrapped p.1 ds X hh1 hh2, commentLabel_append,
      cellContent_label _ _ (toDigits_digits p.1) hh2,
      cellContent_label _ _ hh1 hh2]
  rw [List.map_map, List.map_congr_left hpoint, ← List.map_map,
    List.enum_map_snd]
  refine ((sortRows_perm _).map rowCommentContent).trans ?_
  rw [List.map_map]
  have hpre : ∀ r ∈ T.rows,
      (rowCommentContent ∘ prefillRow) r = rowCommentContent r := by
    intro r _
    show rowCommentContent (prefillRow r) = rowCommentContent r
    unfold rowCommentContent prefillRow
    dsimp only
    cases hc : r.comments with
    | missing => decide
    | str s => rfl
    | num q => rfl
    | time v => rfl
  rw [List.map_congr_left hpre]

/-- Feeding the pipeline its own output: it succeeds, and the comment
contents survive as a multiset (only the indices in the labels change
with the new sort positions). -/
theorem second_run (t u : Table) (hok : clean_dataset t = Except.ok u) :
    ∃ u2, clean_dataset u = Except.ok u2
      ∧ (u2.rows.map rowCommentContent).Perm
          (u.rows.map rowCommentContent) := by
  have hQ : ∀ r ∈ u.rows, RowOk r :=
    fun r hr => (clean_dataset_rows_ok t u hok r hr).1
  have hS : ∀ r ∈ u.rows, CommentShaped r :=
    fun r hr => (clean_dataset_rows_ok t u hok r hr).2
  have h1 : clean_timestamps u = u := second_ts u hQ
  have hQ2 : ∀ r ∈ (clean_student_ids u).rows, RowOk r := by
    intro r hr
    obtain ⟨r0, hr0, he⟩ := mem_origin_sid
      (fun r => (r.timestamp, r.age, r.gpa, r.satisfaction))
      (fun r c => rfl) u r hr
    exact rowOk_of_eq r r0 he (hQ r0 hr0)
  have h3 : clean_ages (clean_student_ids u) = clean_student_ids u :=
    second_ages _ hQ2
  have hQ4 : ∀ r ∈ (clean_gender (clean_student_ids u)).rows, RowOk r := by
    intro r hr
    obtain ⟨r0, hr0, he⟩ := mem_origin_gender
      (fun r => (r.timestamp, r.age, r.gpa, r.satisfaction))
      (fun r c => rfl) _ r hr
    exact rowOk_of_eq r r0 he (hQ2 r0 hr0)
  have hQ5 : ∀ r ∈ (clean_departments (clean_gender
      (clean_student_ids u))).rows, RowOk r := by
    intro r hr
    obtain ⟨r0, hr0, he⟩ := mem_origin_dept
      (fun r => (r.timestamp, r.age, r.gpa, r.satisfaction))
      (fun r c => rfl) _ r hr
    exact rowOk_of_eq r r0 he (hQ4 r0 hr0)
  have h6 : clean_gpa (clean_departments (clean_gender
      (clean_student_ids u)))
      = clean_departments (clean_gender (clean_student_ids u)) :=
    second_gpa _ hQ5
  have h7 : clean_satisfaction (clean_departments (clean_gender
      (clean_student_ids u)))
      = Except.ok (clean_departments (clean_gender (clean_student_ids u))) :=
    second_sat _ hQ5
  refine ⟨clean_comments (clean_departments (clean_gender
    (clean_student_ids u))), ?_, ?_⟩
  · unfold clean_dataset
    dsimp only
    rw [h1, h3, h6, h7]
  · have hTshape : ∀ r ∈ (clean_departments (clean_gender
        (clean_student_ids u))).rows, CommentShaped r := by
      intro r hr
      obtain ⟨r1, hr1, e1⟩ :=
        mem_origin_dept Row.comments (fun r c => rfl) _ r hr
      obtain ⟨r2, hr2, e2⟩ :=
        mem_origin_gender Row.comments (fun r c => rfl) _ r1 hr1
      obtain ⟨r3, hr3, e3⟩ :=
        mem_origin_sid Row.comments (fun r c => rfl) _ r2 hr2
      obtain ⟨ds, X, hh1, hh2, hh3⟩ := hS r3 hr3
      exact ⟨ds, X, hh1, hh2, by rw [e1, e2, e3, hh3]⟩
    have hTcontents : (clean_departments (clean_gender
        (clean_student_ids u))).rows.map rowCommentContent
        = u.rows.map rowCommentContent := by
      rw [proj_dept_eq rowCommentContent (fun r c => rfl),
        proj_gender_eq rowCommentContent (fun r c => rfl),
        proj_sid_eq rowCommentContent (fun r c => rfl)]
    exact (contents_clean_comments _ hTshape).trans (by rw [hTcontents])

/-- C7.  Comment-normalizer idempotence: on an already-normalized comment
`"Comment {N}: {c}"` (digit label, trim-fixed non-empty content) the
normalizer at index `i` returns `"Comment {i}: {c}"` — content preserved,
index updated; consequently running the pipeline on its own output
succeeds and leaves the multiset of comment contents unchanged, only
reindexing them by the new sort positions. -/
theorem C7_comment_idempotence :
    (∀ (i : ℕ) (ds c : Str), ds ≠ [] → (∀ ch ∈ ds, ch.isDigit = true) →
      pyStrip c = c → c ≠ [] →
      standardizeComment i
          (Cell.str ("Comment ".data ++ ds ++ ": ".data ++ c))
        = commentLabel i ++ c)
    ∧ (∀ t u : Table, clean_dataset t = Except.ok u →
        ∃ u2, clean_dataset u = Except.ok u2
          ∧ (u2.rows.map rowCommentContent).Perm
              (u.rows.map rowCommentContent)) :=
  ⟨fun i ds c _ hds hc _ => standardizeComment_wrapped i ds c hds hc,
   second_run⟩

theorem C7_comment_idempotence_witness :
    (standardizeComment 7
        (Cell.str ("Comment ".data ++ "2".data ++ ": ".data
          ++ "great class".data))
      = commentLabel 7 ++ "great class".data)
    ∧ (∃ u u2, clean_dataset pipeTbl = Except.ok u
        ∧ clean_dataset u = Except.ok u2
        ∧ (u2.rows.map rowCommentContent).Perm
            (u.rows.map rowCommentContent)) := by
  constructor
  · exact C7_comment_idempotence.1 7 "2".data "great class".data
      (by decide) (by decide) (by decide) (by decide)
  · have h : ∃ u, clean_dataset pipeTbl = Except.ok u := by
      unfold clean_dataset
      dsimp only
      split
      · exact ⟨_, rfl⟩
      · next e heq =>
        obtain ⟨u, hu⟩ := (clean_satisfaction_ok_iff
          (clean_gpa (clean_departments (clean_gender (clean_ages
            (clean_student_ids (clean_timestamps pipeTbl))))))).mpr
          (by with_unfolding_all decide)
        rw [hu] at heq
        exact Except.noConfusion heq
    obtain ⟨u, hu⟩ := h
    obtain ⟨u2, h2, h3⟩ := C7_comment_idempotence.2 pipeTbl u hu
    exact ⟨u, u2, hu, h2, h3⟩
